import Mathlib

/-!
Verification of the markdown parsing/serialization subsystem of the
markus-the-editor repository (src/editor/markdown.ts), against its
natural-language specification.

Strings are modelled as `List Char` (one entry per UTF-16 code unit of the
JavaScript string; all inputs considered here are in the BMP, where the two
notions coincide).  Each definition is a direct translation of the
correspondingly named function in src/editor/markdown.ts.
-/

namespace Markus

/-- One global single-character replacement pass, modelling
JavaScript `text.replace(/c/g, s)` for a single character `c`
(each occurrence of `c` is replaced by the string `s`). -/
def replaceAll (c : Char) (s : List Char) : List Char → List Char
  | [] => []
  | x :: t => (if x = c then s else [x]) ++ replaceAll c s t

/-- `escapeCommentText` from markdown.ts: five sequential global
replacement passes, in source order: `\` → `\\`, `"` → `\"`,
newline → `\n`, carriage return → `\r`, tab → `\t`. -/
def escapeCommentText (t : List Char) : List Char :=
  replaceAll '\t' ['\\', 't']
    (replaceAll '\r' ['\\', 'r']
      (replaceAll '\n' ['\\', 'n']
        (replaceAll '"' ['\\', '"']
          (replaceAll '\\' ['\\', '\\'] t))))

/-- `unescapeCommentText` from markdown.ts: a left-to-right scan; a
backslash followed by one of `\ " n r t` decodes to the escaped character
(consuming two characters); a backslash followed by any other character is
kept literally (consuming one character); a trailing lone backslash is kept. -/
def unescapeCommentText : List Char → List Char
  | [] => []
  | [c] => [c]
  | c :: next :: rest =>
    if c = '\\' then
      if next = '\\' then '\\' :: unescapeCommentText rest
      else if next = '"' then '"' :: unescapeCommentText rest
      else if next = 'n' then '\n' :: unescapeCommentText rest
      else if next = 'r' then '\r' :: unescapeCommentText rest
      else if next = 't' then '\t' :: unescapeCommentText rest
      else c :: unescapeCommentText (next :: rest)
    else c :: unescapeCommentText (next :: rest)

/-- The per-character effect of the five escape passes (derived form used
in proofs; `escapeCommentText` is proved equal to its pointwise extension). -/
def escChar (c : Char) : List Char :=
  if c = '\\' then ['\\', '\\']
  else if c = '"' then ['\\', '"']
  else if c = '\n' then ['\\', 'n']
  else if c = '\r' then ['\\', 'r']
  else if c = '\t' then ['\\', 't']
  else [c]

/-- Shorthand: the character list of a string literal (a JavaScript string). -/
def jsStr (s : String) : List Char := s.toList

/-- Divide-by-ten digit emission for `natRepr`; the first argument is
fuel bounding the recursion depth (any fuel at least the number works). -/
def natReprAux : Nat → Nat → List Char
  | 0, _ => []
  | _ + 1, 0 => []
  | fuel + 1, n + 1 =>
    natReprAux fuel ((n + 1) / 10) ++ [Nat.digitChar ((n + 1) % 10)]

/-- Decimal representation of a natural number, as JavaScript `String(n)`. -/
def natRepr (n : Nat) : List Char :=
  if n = 0 then ['0'] else natReprAux n n

/-- JavaScript `parseInt(ds, 10)` on a string of decimal digits. -/
def digitsToNat (ds : List Char) : Nat :=
  ds.foldl (fun acc c => acc * 10 + (c.toNat - '0'.toNat)) 0

/-- The JavaScript `\s` character class, restricted to the ASCII whitespace
characters that can occur in the inputs considered here. -/
def isJsWs (c : Char) : Bool :=
  c == ' ' || c == '\t' || c == '\n' || c == '\r' || c == '\x0b' || c == '\x0c'

/-- JavaScript `String.prototype.trim`. -/
def jsTrim (s : List Char) : List Char :=
  (((s.dropWhile isJsWs).reverse).dropWhile isJsWs).reverse

/-! ## Document model

The ProseMirror schema (src/editor/schema.ts) restricted to the node and
mark types the markdown module manipulates.  `code_block` is omitted: no
claim concerns it.  Attribute defaults in the schema: `align` defaults to
`'inline'`, `width` to `100`, `alt`/`title`/`relativeSrc` to `null`;
`none` models a `null`/`undefined` attribute value. -/

/-- Marks of the schema, in schema rank order (`comment` is declared last,
so `Mark.addToSet` places a comment mark after all other marks). -/
inductive Mark where
  | strong
  | em
  | code
  | link (href : List Char) (title : Option (List Char))
  | strikethrough
  | comment (text : List Char)
deriving DecidableEq

/-- Attributes of an `image` node per the schema. `width` is documented in
the schema as a percentage in 1–100. -/
structure ImageAttrs where
  src : List Char
  alt : Option (List Char)
  title : Option (List Char)
  align : Option (List Char)
  width : Option Nat
  relativeSrc : Option (List Char)
deriving DecidableEq

/-- ProseMirror document nodes (the subset relevant to the claims). -/
inductive PNode where
  | text (s : List Char) (marks : List Mark)
  | image (attrs : ImageAttrs)
  | hard_break
  | horizontal_rule
  | paragraph (children : List PNode)
  | heading (level : Nat) (children : List PNode)
  | blockquote (children : List PNode)
  | bullet_list (children : List PNode)
  | ordered_list (order : Nat) (children : List PNode)
  | list_item (children : List PNode)
  | table (children : List PNode)
  | table_row (children : List PNode)
  | table_cell (children : List PNode)
  | table_header (children : List PNode)
  | doc (children : List PNode)

/-- The ordered children of a node (empty for leaves). -/
def childrenOf : PNode → List PNode
  | .text _ _ => []
  | .image _ => []
  | .hard_break => []
  | .horizontal_rule => []
  | .paragraph cs => cs
  | .heading _ cs => cs
  | .blockquote cs => cs
  | .bullet_list cs => cs
  | .ordered_list _ cs => cs
  | .list_item cs => cs
  | .table cs => cs
  | .table_row cs => cs
  | .table_cell cs => cs
  | .table_header cs => cs
  | .doc cs => cs

/-- Whether a node's type is `hard_break`. -/
def isHardBreak : PNode → Bool
  | .hard_break => true
  | _ => false

/-! ## Hard break serializer (markdown.ts, `hard_break`)

The serializer receives the node, its parent and its index; it scans the
following siblings and writes `"  \n"` at the first sibling whose type
differs from `hard_break`, writing nothing if the scan exhausts the
parent. -/

/-- The scan loop of the `hard_break` serializer over the siblings after
the node: on the first sibling whose type differs from `hard_break`,
write `"  \n"` and return; otherwise continue; at the end write nothing. -/
def hardBreakScan : List PNode → List Char
  | [] => []
  | n :: rest => if isHardBreak n then hardBreakScan rest else [' ', ' ', '\n']

/-- What the `hard_break` serializer writes for the node at position
`index` of `parent`'s children. -/
def hardBreakSerialize (parent : List PNode) (index : Nat) : List Char :=
  hardBreakScan (parent.drop (index + 1))

/-! ## Ordered list serializer (markdown.ts, `ordered_list`) -/

/-- `node.attrs.order || 1` (JavaScript truthiness: `0` falls back to 1). -/
def orderedListStart (order : Nat) : Nat := if order = 0 then 1 else order

/-- `String(start + node.childCount - 1).length`. -/
def orderedListMaxW (order childCount : Nat) : Nat :=
  (natRepr (orderedListStart order + childCount - 1)).length

/-- The continuation indent passed to `renderList`:
`state.repeat(' ', maxW + 2)`. -/
def orderedListIndent (order childCount : Nat) : List Char :=
  List.replicate (orderedListMaxW order childCount + 2) ' '

/-- The per-item marker passed to `renderList`:
`state.repeat(' ', maxW - nStr.length) + nStr + '. '` with
`nStr = String(start + i)`. -/
def orderedListDelim (order childCount i : Nat) : List Char :=
  let nStr := natRepr (orderedListStart order + i)
  List.replicate (orderedListMaxW order childCount - nStr.length) ' ' ++ nStr ++ ['.', ' ']

/-- The marker as described by the specification sentence "all markers
right-padded to that width" read literally (number first, padding after
it): used only to compare the specification's wording with the code. -/
def orderedListDelimRightPadded (order childCount i : Nat) : List Char :=
  let nStr := natRepr (orderedListStart order + i)
  nStr ++ List.replicate (orderedListMaxW order childCount - nStr.length) ' ' ++ ['.', ' ']

/-! ## markdown-it tokens (transient token model)

A token has a type tag, optional nested inline children, a content string
and an optional source line range (`token.map`). -/

/-- Inline child tokens of an `inline` token, as inspected by
`parseTableTokens`: text tokens carry content; mark open/close tokens and
all other inline kinds carry nothing the table walker uses. -/
inductive InlineTok where
  | text (content : List Char)
  | strong_open
  | strong_close
  | em_open
  | em_close
  | otherInline
deriving DecidableEq

/-- Token type tags relevant to the markdown module. `otherTok` stands for
any other token kind (heading_open, paragraph_open, fence, ...). -/
inductive TokKind where
  | table_open
  | table_close
  | tr_open
  | tr_close
  | th_open
  | td_open
  | th_close
  | td_close
  | inline
  | otherTok
deriving DecidableEq

/-- A markdown-it token. -/
structure Tok where
  kind : TokKind
  children : Option (List InlineTok)
  content : List Char
  lineMap : Option (Nat × Nat)
deriving DecidableEq

/-- Convenience constructor for a token with no children/content/map. -/
def mkTok (k : TokKind) : Tok := ⟨k, none, [], none⟩

/-- Convenience constructor for an inline token with nested children. -/
def mkInlineTok (cs : List InlineTok) : Tok := ⟨TokKind.inline, some cs, [], none⟩

/-! ## Table extractor (markdown.ts, `parseTableTokens`) -/

/-- The inner loop over an inline token's children inside a table cell:
text children become text nodes; `strong_open`/`em_open` (and every other
child kind) contribute nothing. -/
def inlineCellContent : List InlineTok → List PNode
  | [] => []
  | InlineTok.text c :: rest => PNode.text c [] :: inlineCellContent rest
  | _ :: rest => inlineCellContent rest

/-- `schema.nodes[currentCellType].create(null, paragraph)`: a header or
data cell wrapping the given children. -/
def cellNodeOf (header : Bool) (children : List PNode) : PNode :=
  if header then PNode.table_header children else PNode.table_cell children

/-- The token walk of `parseTableTokens`, threading its four mutable
variables (`rows`, `currentRow`, `currentCellType` — `some true` for a
header cell, `some false` for a data cell, `none` outside a cell — and
`currentCellContent`).  On `table_close` with accumulated rows it returns
the table immediately (the JavaScript `return` inside the loop); falling
off the end of the tokens returns `none` (the final `return null`). -/
def parseTableTokensGo :
    List Tok → List PNode → List PNode → Option Bool → List PNode → Option PNode
  | [], _, _, _, _ => none
  | t :: rest, rows, currentRow, cellType, cellContent =>
    match t.kind with
    | .table_open => parseTableTokensGo rest [] currentRow cellType cellContent
    | .table_close =>
      if rows.isEmpty then
        parseTableTokensGo rest rows currentRow cellType cellContent
      else some (PNode.table rows)
    | .tr_open => parseTableTokensGo rest rows [] cellType cellContent
    | .tr_close =>
      if currentRow.isEmpty then
        parseTableTokensGo rest rows currentRow cellType cellContent
      else
        parseTableTokensGo rest (rows ++ [PNode.table_row currentRow])
          currentRow cellType cellContent
    | .th_open => parseTableTokensGo rest rows currentRow (some true) []
    | .td_open => parseTableTokensGo rest rows currentRow (some false) []
    | .th_close =>
      match cellType with
      | some h =>
        parseTableTokensGo rest rows
          (currentRow ++ [cellNodeOf h [PNode.paragraph cellContent]]) none []
      | none => parseTableTokensGo rest rows currentRow none []
    | .td_close =>
      match cellType with
      | some h =>
        parseTableTokensGo rest rows
          (currentRow ++ [cellNodeOf h [PNode.paragraph cellContent]]) none []
      | none => parseTableTokensGo rest rows currentRow none []
    | .inline =>
      match cellType with
      | some h =>
        match t.children with
        | some cs =>
          parseTableTokensGo rest rows currentRow (some h)
            (cellContent ++ inlineCellContent cs)
        | none =>
          if t.content.isEmpty then
            parseTableTokensGo rest rows currentRow (some h) cellContent
          else
            parseTableTokensGo rest rows currentRow (some h)
              (cellContent ++ [PNode.text t.content []])
      | none => parseTableTokensGo rest rows currentRow none cellContent
    | .otherTok => parseTableTokensGo rest rows currentRow cellType cellContent

/-- `parseTableTokens` from markdown.ts. -/
def parseTableTokens (ts : List Tok) : Option PNode :=
  parseTableTokensGo ts [] [] none []

/-- The token sequence markdown-it emits for one table cell: a cell-open,
one inline token holding the cell's inline children, and the matching
cell-close. -/
def cellToks (cell : Bool × List InlineTok) : List Tok :=
  [mkTok (if cell.1 then TokKind.th_open else TokKind.td_open),
   mkInlineTok cell.2,
   mkTok (if cell.1 then TokKind.th_close else TokKind.td_close)]

/-- The token sequence for one table row. -/
def rowToks (cells : List (Bool × List InlineTok)) : List Tok :=
  mkTok TokKind.tr_open :: (cells.flatMap cellToks) ++ [mkTok TokKind.tr_close]

/-- The balanced token sequence for a whole table. -/
def tableToks (rows : List (List (Bool × List InlineTok))) : List Tok :=
  mkTok TokKind.table_open :: (rows.flatMap rowToks) ++ [mkTok TokKind.table_close]

/-- The cell node `parseTableTokens` is expected to build for a cell
description: a header or data cell wrapping exactly one paragraph whose
content is the literal text of the text children, all marks discarded. -/
def expectedCell (cell : Bool × List InlineTok) : PNode :=
  cellNodeOf cell.1 [PNode.paragraph (inlineCellContent cell.2)]

/-- The row node `parseTableTokens` is expected to build for a row. -/
def expectedRow (cells : List (Bool × List InlineTok)) : PNode :=
  PNode.table_row (cells.map expectedCell)

/-! ## Table serializer (markdown.ts, `serializeTable` / `getCellTextContent`) -/

mutual

/-- ProseMirror `node.textContent`: concatenation of all descendant text. -/
def PNode.textContent : PNode → List Char
  | .text s _ => s
  | .image _ => []
  | .hard_break => []
  | .horizontal_rule => []
  | .paragraph cs => textContentList cs
  | .heading _ cs => textContentList cs
  | .blockquote cs => textContentList cs
  | .bullet_list cs => textContentList cs
  | .ordered_list _ cs => textContentList cs
  | .list_item cs => textContentList cs
  | .table cs => textContentList cs
  | .table_row cs => textContentList cs
  | .table_cell cs => textContentList cs
  | .table_header cs => textContentList cs
  | .doc cs => textContentList cs

/-- `textContent` over a list of children. -/
def textContentList : List PNode → List Char
  | [] => []
  | n :: rest => PNode.textContent n ++ textContentList rest

end

/-- The inner loop of `getCellTextContent` over a paragraph child's
inline children: only text nodes contribute. -/
def paragraphInlineText : List PNode → List Char
  | [] => []
  | PNode.text s _ :: rest => s ++ paragraphInlineText rest
  | _ :: rest => paragraphInlineText rest

/-- The loop of `getCellTextContent` over a cell's children: text nodes
contribute their text, paragraphs the text of their inline text children,
any other child its full `textContent`. -/
def cellTextPieces : List PNode → List Char
  | [] => []
  | PNode.text s _ :: rest => s ++ cellTextPieces rest
  | PNode.paragraph cs :: rest => paragraphInlineText cs ++ cellTextPieces rest
  | n :: rest => PNode.textContent n ++ cellTextPieces rest

/-- `getCellTextContent` from markdown.ts. -/
def getCellTextContent (cell : PNode) : List Char :=
  jsTrim (cellTextPieces (childrenOf cell))

/-- Whether a node's type is `table_header`. -/
def isTableHeader : PNode → Bool
  | .table_header _ => true
  | _ => false

/-- The `rows` array built by the first pass of `serializeTable`: per row,
the list of its cells' text contents. -/
def collectRows (t : PNode) : List (List (List Char)) :=
  (childrenOf t).map (fun row => (childrenOf row).map getCellTextContent)

/-- The `hasHeaderRow` flag of `serializeTable`: set when any cell of any
row has type `table_header`. -/
def tableHasHeaderRow (t : PNode) : Bool :=
  (childrenOf t).any (fun row => (childrenOf row).any isTableHeader)

/-- `Math.max(...rows.map(r => r.length))` (rows is nonempty whenever this
is used, so seeding the fold with 0 agrees with `Math.max`). -/
def tableColCount (rows : List (List (List Char))) : Nat :=
  rows.foldl (fun acc r => max acc r.length) 0

/-- Column width computation of `serializeTable`: start from the minimum
separator width 3 and take the maximum cell text length in the column,
skipping missing/empty cells (`if (row[col])`). -/
def colWidthFold (rows : List (List (List Char))) (col : Nat) : Nat :=
  rows.foldl (fun acc row =>
    match row.get? col with
    | some s => if s.isEmpty then acc else max acc s.length
    | none => acc) 3

/-- JavaScript `content.padEnd(width)`. -/
def padEnd (s : List Char) (w : Nat) : List Char :=
  s ++ List.replicate (w - s.length) ' '

/-- One content line of the serialized table (`'|'` then per column
`' ' + content.padEnd(width) + ' |'`), without its trailing newline. -/
def rowLine (rows : List (List (List Char))) (row : List (List Char))
    (colCount : Nat) : List Char :=
  '|' :: (List.range colCount).flatMap (fun col =>
    ' ' :: padEnd ((row.get? col).getD []) (colWidthFold rows col) ++ [' ', '|'])

/-- The separator line (`'|'` then per column `' ' + '-'.repeat(width) + ' |'`). -/
def sepLine (rows : List (List (List Char))) (colCount : Nat) : List Char :=
  '|' :: (List.range colCount).flatMap (fun col =>
    ' ' :: List.replicate (colWidthFold rows col) '-' ++ [' ', '|'])

/-- The row-writing loop of `serializeTable`: each row's line, and after
row 0 the separator iff the table has a header cell or more than one
row. -/
def writeRowsLoop (allRows : List (List (List Char))) (colCount : Nat)
    (hasHeader : Bool) : List (List (List Char)) → Nat → List (List Char)
  | [], _ => []
  | r :: rest, i =>
    rowLine allRows r colCount ::
      ((if i = 0 ∧ (hasHeader ∨ 1 < allRows.length) then
          [sepLine allRows colCount]
        else []) ++
        writeRowsLoop allRows colCount hasHeader rest (i + 1))

/-- The lines written by `serializeTable` (each `state.write` of the code
ends with a newline; this returns the lines without them; a zero-row
table renders nothing). -/
def serializeTableLines (t : PNode) : List (List Char) :=
  if (collectRows t).isEmpty then []
  else
    writeRowsLoop (collectRows t) (tableColCount (collectRows t))
      (tableHasHeaderRow t) (collectRows t) 0

/-- `serializeTable` from markdown.ts: the full written text. -/
def serializeTable (t : PNode) : List Char :=
  (serializeTableLines t).flatMap (fun l => l ++ ['\n'])

/-- Maximum of a list of naturals. -/
def listMax (l : List Nat) : Nat := l.foldr max 0

/-! ## Image serializer (markdown.ts, `image`)

The serializer is parameterized by `esc`, prosemirror-markdown's
`state.esc` (markdown special-character escaping applied to the alt text
in the bare-markdown branch); the claims proved here hold for every
escaping function. -/

/-- JavaScript truthiness of a nullable string attribute. -/
def optStrTruthy : Option (List Char) → Bool
  | some s => !s.isEmpty
  | none => false

/-- JavaScript truthiness of a nullable numeric attribute. -/
def optNatTruthy : Option Nat → Bool
  | some w => !(w == 0)
  | none => false

/-- `(align && align !== 'inline') || (width && width !== 100)`. -/
def imageHasCustomAttrs (a : ImageAttrs) : Bool :=
  (match a.align with
   | some s => !s.isEmpty && !(s == jsStr "inline")
   | none => false) ||
  (match a.width with
   | some w => !(w == 0) && !(w == 100)
   | none => false)

/-- `relativeSrc || src`. -/
def imageMarkdownSrc (a : ImageAttrs) : List Char :=
  match a.relativeSrc with
  | some r => if r.isEmpty then a.src else r
  | none => a.src

/-- `.replace(/"/g, '&quot;')`. -/
def replaceQuotHtml (s : List Char) : List Char :=
  replaceAll '"' (jsStr "&quot;") s

/-- `.replace(/"/g, '\\"')`. -/
def replaceQuotEsc (s : List Char) : List Char :=
  replaceAll '"' ['\\', '"'] s

/-- The `image` serializer from markdown.ts: the string written for an
image node, given the writer's escaping function `esc`. -/
def imageSerialize (esc : List Char → List Char) (a : ImageAttrs) : List Char :=
  if imageHasCustomAttrs a then
    jsStr "<img" ++ jsStr " src=\"" ++ imageMarkdownSrc a ++ ['"']
    ++ (match a.alt with
        | some alt => if alt.isEmpty then [] else jsStr " alt=\"" ++ replaceQuotHtml alt ++ ['"']
        | none => [])
    ++ (match a.title with
        | some ti => if ti.isEmpty then [] else jsStr " title=\"" ++ replaceQuotHtml ti ++ ['"']
        | none => [])
    ++ (match a.align with
        | some s => if !s.isEmpty && !(s == jsStr "inline") then jsStr " align=\"" ++ s ++ ['"'] else []
        | none => [])
    ++ (match a.width with
        | some w => if !(w == 0) && !(w == 100) then jsStr " width=\"" ++ natRepr w ++ jsStr "%\"" else []
        | none => [])
    ++ jsStr " />"
  else
    jsStr "![" ++ esc (match a.alt with | some alt => alt | none => []) ++ jsStr "]("
    ++ imageMarkdownSrc a
    ++ (match a.title with
        | some ti => if ti.isEmpty then [] else jsStr " \"" ++ replaceQuotEsc ti ++ ['"']
        | none => [])
    ++ [')']

/-! ## HTML img tag extraction (markdown.ts, `parseHtmlImgTag` /
`preprocessHtmlImages` / `applyImageAttributes`)

The regexes of the source are narrow enough to have deterministic
backtracking behaviour; each is translated to an explicit scan:
* `/<img\s+([^>]*)\/?\s*>/i` and `/<img\s+[^>]*>/gi`: a match starts at a
  case-insensitive `<img` followed by at least one whitespace and extends
  to the first `>`; the capture is everything between the whitespace run
  and that `>` (since `[^>]*` is greedy, `\/?\s*` can match empty).
* `src=["']([^"']+)["']` (and the `alt`/`title`/`align` variants with `*`):
  at the leftmost position where the key is followed by a quote, a maximal
  run of non-quote characters and another quote.
* `(?:data-)?width=["'](\d+)%?["']`: a quote, a maximal nonempty digit
  run, an optional `%`, and a quote; the `data-` prefixed alternative is
  tried first at each position, as the regex engine does. -/

/-- A `"` or `'` (the character class `["']`). -/
def isQuote (c : Char) : Bool := c == '"' || c == '\''

/-- Match `key` followed by a quoted value at the start of `l`; the value
is a maximal run of non-quote characters, which must be nonempty unless
`allowEmpty`. -/
def matchQuotedValueAt (key : List Char) (allowEmpty : Bool) (l : List Char) :
    Option (List Char) :=
  if key.isPrefixOf l then
    match l.drop key.length with
    | q :: rest =>
      if isQuote q then
        let v := rest.takeWhile (fun c => !(isQuote c))
        if !allowEmpty && v.isEmpty then none
        else
          match rest.drop v.length with
          | q2 :: _ => if isQuote q2 then some v else none
          | [] => none
      else none
    | [] => none
  else none

/-- Leftmost match of `key=["']value["']` in the string. -/
def findAttr (key : List Char) (allowEmpty : Bool) : List Char → Option (List Char)
  | [] => none
  | c :: rest =>
    match matchQuotedValueAt key allowEmpty (c :: rest) with
    | some v => some v
    | none => findAttr key allowEmpty rest

/-- Leftmost match of `(?:data-)?base["']value["']`: at each position the
`data-` prefixed form is tried first (greedy optional group). -/
def findOptDataAttr (base : List Char) : List Char → Option (List Char)
  | [] => none
  | c :: rest =>
    match matchQuotedValueAt (jsStr "data-" ++ base) true (c :: rest) with
    | some v => some v
    | none =>
      match matchQuotedValueAt base true (c :: rest) with
      | some v => some v
      | none => findOptDataAttr base rest

/-- Match `key` followed by `["'](\d+)%?["']` at the start of `l`. -/
def matchWidthAt (key : List Char) (l : List Char) : Option (List Char) :=
  if key.isPrefixOf l then
    match l.drop key.length with
    | q :: rest =>
      if isQuote q then
        let ds := rest.takeWhile Char.isDigit
        if ds.isEmpty then none
        else
          match rest.drop ds.length with
          | '%' :: q2 :: _ => if isQuote q2 then some ds else none
          | q2 :: _ => if isQuote q2 then some ds else none
          | [] => none
      else none
    | [] => none
  else none

/-- Leftmost match of `(?:data-)?width=["'](\d+)%?["']`. -/
def findWidthAttr : List Char → Option Nat
  | [] => none
  | c :: rest =>
    match matchWidthAt (jsStr "data-width=") (c :: rest) with
    | some ds => some (digitsToNat ds)
    | none =>
      match matchWidthAt (jsStr "width=") (c :: rest) with
      | some ds => some (digitsToNat ds)
      | none => findWidthAttr rest

/-- Match one HTML img tag at the start of `l`: `<img` (case-insensitive),
at least one whitespace, then everything up to the first `>`.  Returns
(full matched tag, attribute capture, rest after the match). -/
def matchImgTagAt : List Char → Option (List Char × List Char × List Char)
  | a :: c1 :: c2 :: c3 :: rest =>
    if a = '<' ∧ c1.toLower = 'i' ∧ c2.toLower = 'm' ∧ c3.toLower = 'g' then
      if (rest.takeWhile isJsWs).isEmpty then none
      else
        match (rest.dropWhile isJsWs).dropWhile (fun c => !(c == '>')) with
        | d :: tail =>
          if d = '>' then
            some (a :: c1 :: c2 :: c3 ::
                (rest.takeWhile isJsWs ++
                  (rest.dropWhile isJsWs).takeWhile (fun c => !(c == '>')) ++ ['>']),
              (rest.dropWhile isJsWs).takeWhile (fun c => !(c == '>')),
              tail)
          else none
        | [] => none
    else none
  | _ => none

/-- Leftmost img tag match in a string:
(text before, full matched tag, attribute capture, rest after). -/
def findImgTagMatch : List Char → Option (List Char × List Char × List Char × List Char)
  | [] => none
  | c :: rest =>
    match matchImgTagAt (c :: rest) with
    | some (full, attrs, after) => some ([], full, attrs, after)
    | none =>
      match findImgTagMatch rest with
      | some (b, full, attrs, after) => some (c :: b, full, attrs, after)
      | none => none

/-- The attribute record returned by `parseHtmlImgTag`. -/
structure ImgTagAttrs where
  src : List Char
  alt : Option (List Char)
  title : Option (List Char)
  align : Option (List Char)
  width : Option Nat
deriving DecidableEq

/-- `parseHtmlImgTag` from markdown.ts: match the img tag regex, require a
`src` attribute, and extract the optional `alt`, `title`,
`align`/`data-align` and `width`/`data-width` attributes.  The width is
`parseInt` of the digit capture — the code applies no clamping. -/
def parseHtmlImgTag (html : List Char) : Option ImgTagAttrs :=
  match findImgTagMatch html with
  | none => none
  | some (_, _, attrsStr, _) =>
    match findAttr (jsStr "src=") false attrsStr with
    | none => none
    | some src =>
      some
        { src := src
          alt := findAttr (jsStr "alt=") true attrsStr
          title := findAttr (jsStr "title=") true attrsStr
          align := findOptDataAttr (jsStr "align=") attrsStr
          width := findWidthAttr attrsStr }

/-- The side-table entry stored by `preprocessHtmlImages`
(`{align: parsed.align, width: parsed.width}` — both possibly absent). -/
structure ImgExtra where
  align : Option (List Char)
  width : Option Nat
deriving DecidableEq

/-- The side table `src → {align?, width?}`, with JavaScript `Map`
semantics: `set` overwrites an existing key in place, otherwise appends;
entries are kept in insertion order. -/
abbrev AttrMap : Type := List (List Char × ImgExtra)

/-- `Map.prototype.get`. -/
def mapGet (m : AttrMap) (k : List Char) : Option ImgExtra :=
  (m.find? (fun e => e.1 == k)).map (fun e => e.2)

/-- `Map.prototype.set`. -/
def mapSet (m : AttrMap) (k : List Char) (v : ImgExtra) : AttrMap :=
  if m.any (fun e => e.1 == k) then
    m.map (fun e => if e.1 == k then (k, v) else e)
  else m ++ [(k, v)]

/-- `(parsed.align && parsed.align !== 'inline') ||
(parsed.width && parsed.width !== 100)`. -/
def imgExtraNonDefault (p : ImgTagAttrs) : Bool :=
  (match p.align with
   | some s => !s.isEmpty && !(s == jsStr "inline")
   | none => false) ||
  (match p.width with
   | some w => !(w == 0) && !(w == 100)
   | none => false)

/-- The canonical markdown replacement `![alt](src "title")` built by the
replace callback of `preprocessHtmlImages`. -/
def imgReplacement (p : ImgTagAttrs) : List Char :=
  jsStr "![" ++ (match p.alt with | some a => a | none => []) ++ jsStr "]("
  ++ p.src
  ++ (match p.title with
      | some t => if t.isEmpty then [] else jsStr " \"" ++ t ++ ['"']
      | none => [])
  ++ [')']

/-- The global-replace loop of `preprocessHtmlImages`, one iteration per
regex match, threading the side table.  The first argument is fuel (every
match consumes at least one character, so `content.length + 1` always
suffices). -/
def preprocessHtmlImagesGo : Nat → List Char → AttrMap → List Char × AttrMap
  | 0, content, m => (content, m)
  | fuel + 1, content, m =>
    match findImgTagMatch content with
    | none => (content, m)
    | some (before, full, _, after) =>
      match parseHtmlImgTag full with
      | none =>
        (before ++ full ++ (preprocessHtmlImagesGo fuel after m).1,
         (preprocessHtmlImagesGo fuel after m).2)
      | some p =>
        (before ++ imgReplacement p ++
           (preprocessHtmlImagesGo fuel after
             (if imgExtraNonDefault p then mapSet m p.src ⟨p.align, p.width⟩ else m)).1,
         (preprocessHtmlImagesGo fuel after
           (if imgExtraNonDefault p then mapSet m p.src ⟨p.align, p.width⟩ else m)).2)

/-- `preprocessHtmlImages` from markdown.ts. -/
def preprocessHtmlImages (content : List Char) : List Char × AttrMap :=
  preprocessHtmlImagesGo (content.length + 1) content []

/-- The sequence of full img-tag matches of the global regex, in match
order (fuelled like the replace loop). -/
def imgTagMatchesGo : Nat → List Char → List (List Char)
  | 0, _ => []
  | fuel + 1, content =>
    match findImgTagMatch content with
    | none => []
    | some (_, full, _, after) => full :: imgTagMatchesGo fuel after

/-- The img-tag matches of `content`, in order. -/
def imgTagMatches (content : List Char) : List (List Char) :=
  imgTagMatchesGo (content.length + 1) content

/-- `attrs.align || node.attrs.align` (empty string and `undefined` fall
back). -/
def orStrOpt (x y : Option (List Char)) : Option (List Char) :=
  match x with
  | some s => if s.isEmpty then y else some s
  | none => y

/-- `attrs.width || node.attrs.width` (`0` and `undefined` fall back). -/
def orNatOpt (x y : Option Nat) : Option Nat :=
  match x with
  | some w => if w == 0 then y else some w
  | none => y

/-- The image-node update performed by `applyImageAttributes` when the
side table has an entry for the node's `src`; identity otherwise. -/
def updateImage (m : AttrMap) (a : ImageAttrs) : ImageAttrs :=
  match mapGet m a.src with
  | some e =>
    { a with align := orStrOpt e.align a.align, width := orNatOpt e.width a.width }
  | none => a

mutual

/-- The recursive `transform` of `applyImageAttributes`: image nodes with
a side-table entry for their `src` are rebuilt with the stored
align/width; leaves pass through; containers are rebuilt from transformed
children. -/
def applyImageAttributesNode (m : AttrMap) : PNode → PNode
  | .text s marks => .text s marks
  | .image a => .image (updateImage m a)
  | .hard_break => .hard_break
  | .horizontal_rule => .horizontal_rule
  | .paragraph cs => .paragraph (applyImageAttributesList m cs)
  | .heading lv cs => .heading lv (applyImageAttributesList m cs)
  | .blockquote cs => .blockquote (applyImageAttributesList m cs)
  | .bullet_list cs => .bullet_list (applyImageAttributesList m cs)
  | .ordered_list o cs => .ordered_list o (applyImageAttributesList m cs)
  | .list_item cs => .list_item (applyImageAttributesList m cs)
  | .table cs => .table (applyImageAttributesList m cs)
  | .table_row cs => .table_row (applyImageAttributesList m cs)
  | .table_cell cs => .table_cell (applyImageAttributesList m cs)
  | .table_header cs => .table_header (applyImageAttributesList m cs)
  | .doc cs => .doc (applyImageAttributesList m cs)

/-- `transform` over a children list. -/
def applyImageAttributesList (m : AttrMap) : List PNode → List PNode
  | [] => []
  | n :: rest => applyImageAttributesNode m n :: applyImageAttributesList m rest

end

/-- `applyImageAttributes` from markdown.ts (no-op on an empty table). -/
def applyImageAttributes (d : PNode) (m : AttrMap) : PNode :=
  if m.isEmpty then d else applyImageAttributesNode m d

mutual

/-- All image nodes of a tree, in document order. -/
def imagesOfNode : PNode → List ImageAttrs
  | .text _ _ => []
  | .image a => [a]
  | .hard_break => []
  | .horizontal_rule => []
  | .paragraph cs => imagesOfList cs
  | .heading _ cs => imagesOfList cs
  | .blockquote cs => imagesOfList cs
  | .bullet_list cs => imagesOfList cs
  | .ordered_list _ cs => imagesOfList cs
  | .list_item cs => imagesOfList cs
  | .table cs => imagesOfList cs
  | .table_row cs => imagesOfList cs
  | .table_cell cs => imagesOfList cs
  | .table_header cs => imagesOfList cs
  | .doc cs => imagesOfList cs

/-- Image collection over a children list. -/
def imagesOfList : List PNode → List ImageAttrs
  | [] => []
  | n :: rest => imagesOfNode n ++ imagesOfList rest

end

/-- The side-table entry the last relevant img tag (same `src`,
non-default attributes) records, scanning the match list from the end. -/
def lastRecordedFor (src : List Char) (tags : List (List Char)) : Option ImgExtra :=
  tags.reverse.findSome? (fun full =>
    match parseHtmlImgTag full with
    | some p =>
      if imgExtraNonDefault p && (p.src == src) then some ⟨p.align, p.width⟩
      else none
    | none => none)

/-! ## Comment marker resolution (markdown.ts, `applyCommentMarks`)

The marker pattern is the regex
`⟨S⟩(\d+)⟨S⟩([\s\S]*?)⟨E⟩\1⟨E⟩` (global), where `⟨S⟩`/`⟨E⟩` are the
sentinel codes `\u0001CMTS\u0001`/`\u0001CMTE\u0001`.  Its backtracking is
deterministic: the digit capture is the maximal digit run (the next
pattern character `\u0001` is not a digit), and the lazy middle takes the
closest following occurrence of `⟨E⟩` + the same digits + `⟨E⟩`. -/

/-- `COMMENT_START_MARKER` = `\u0001CMTS\u0001`. -/
def CMTS : List Char := ['\x01', 'C', 'M', 'T', 'S', '\x01']

/-- `COMMENT_END_MARKER` = `\u0001CMTE\u0001`. -/
def CMTE : List Char := ['\x01', 'C', 'M', 'T', 'E', '\x01']

/-- Lazy search: split `l` at the closest position where `endPat` occurs,
returning the part before and the part after the occurrence. -/
def findLazyEnd (endPat : List Char) : List Char → Option (List Char × List Char)
  | [] => if endPat.isPrefixOf [] then some ([], []) else none
  | c :: rest =>
    if endPat.isPrefixOf (c :: rest) then some ([], (c :: rest).drop endPat.length)
    else
      match findLazyEnd endPat rest with
      | some (h, after) => some (c :: h, after)
      | none => none

/-- Match the full marker group at the start of `l`:
start sentinel, digit id, start sentinel, lazy middle, end sentinel, same
id, end sentinel.  Returns (digit string, highlighted text, rest). -/
def matchMarkerAt (l : List Char) : Option (List Char × List Char × List Char) :=
  if CMTS.isPrefixOf l then
    if ((l.drop CMTS.length).takeWhile Char.isDigit).isEmpty then none
    else
      if CMTS.isPrefixOf ((l.drop CMTS.length).drop
          ((l.drop CMTS.length).takeWhile Char.isDigit).length) then
        match findLazyEnd
            (CMTE ++ (l.drop CMTS.length).takeWhile Char.isDigit ++ CMTE)
            (((l.drop CMTS.length).drop
                ((l.drop CMTS.length).takeWhile Char.isDigit).length).drop CMTS.length) with
        | some (h, after) =>
          some ((l.drop CMTS.length).takeWhile Char.isDigit, h, after)
        | none => none
      else none
  else none

/-- Leftmost marker match: (text before, digit id, highlighted, rest). -/
def findMarkerMatch : List Char → Option (List Char × List Char × List Char × List Char)
  | [] => none
  | c :: rest =>
    match matchMarkerAt (c :: rest) with
    | some (ds, h, after) => some ([], ds, h, after)
    | none =>
      match findMarkerMatch rest with
      | some (b, ds, h, after) => some (c :: b, ds, h, after)
      | none => none

/-- The comment-texts side table built by `preprocessComments`
(`Map<number, string>`), as an association list in insertion order. -/
abbrev CommentTexts : Type := List (Nat × List Char)

/-- `commentTexts.get(idx)`. -/
def ctGet (ct : CommentTexts) (k : Nat) : Option (List Char) :=
  (ct.find? (fun e => e.1 == k)).map (fun e => e.2)

/-- Whether a mark is a comment mark. -/
def isCommentMark : Mark → Bool
  | .comment _ => true
  | _ => false

/-- `commentMark.create({text}).addToSet(node.marks)`: marks of the same
type replace each other and the comment mark ranks last in the schema, so
the new comment mark replaces any existing one and sits after the other
marks. -/
def addCommentToSet (t : List Char) (marks : List Mark) : List Mark :=
  (marks.filter (fun mk => !(isCommentMark mk))) ++ [Mark.comment t]

/-- The regex-exec loop of the text case of `applyCommentMarks`: for each
match in order, push the text before it (if nonempty) and the highlighted
text with the comment mark added (if nonempty); push the remaining text
after the last match (if nonempty).  Missing ids read as the empty
comment text (`commentTexts.get(idx) || ''`).  Fuelled: each match
consumes at least one character. -/
def splitMarkersGo (ct : CommentTexts) (marks : List Mark) :
    Nat → List Char → List PNode
  | 0, text => if text.isEmpty then [] else [PNode.text text marks]
  | fuel + 1, text =>
    match findMarkerMatch text with
    | none => if text.isEmpty then [] else [PNode.text text marks]
    | some (before, ds, hl, after) =>
      (if before.isEmpty then [] else [PNode.text before marks]) ++
      (if hl.isEmpty then [] else
        [PNode.text hl (addCommentToSet ((ctGet ct (digitsToNat ds)).getD []) marks)]) ++
      splitMarkersGo ct marks fuel after

/-- JavaScript `text.includes(pat)`: `pat` occurs as a contiguous
substring. -/
def containsSub (pat : List Char) : List Char → Bool
  | [] => pat.isPrefixOf []
  | c :: rest => pat.isPrefixOf (c :: rest) || containsSub pat rest

/-- The text-node case of `transformNode` in `applyCommentMarks`: a text
leaf without the start sentinel passes through; otherwise the match loop
runs, and if it produced no nodes the original leaf is returned. -/
def transformTextNode (ct : CommentTexts) (s : List Char) (marks : List Mark) :
    List PNode :=
  if !(containsSub CMTS s) then [PNode.text s marks]
  else
    if (splitMarkersGo ct marks (s.length + 1) s).isEmpty then [PNode.text s marks]
    else splitMarkersGo ct marks (s.length + 1) s

mutual

/-- `transformNode` of `applyCommentMarks`: text leaves are split on
markers; other leaves pass through; containers are rebuilt from the
concatenated transforms of their children. -/
def transformNodeC (ct : CommentTexts) : PNode → List PNode
  | .text s marks => transformTextNode ct s marks
  | .image a => [.image a]
  | .hard_break => [.hard_break]
  | .horizontal_rule => [.horizontal_rule]
  | .paragraph cs => [.paragraph (transformListC ct cs)]
  | .heading lv cs => [.heading lv (transformListC ct cs)]
  | .blockquote cs => [.blockquote (transformListC ct cs)]
  | .bullet_list cs => [.bullet_list (transformListC ct cs)]
  | .ordered_list o cs => [.ordered_list o (transformListC ct cs)]
  | .list_item cs => [.list_item (transformListC ct cs)]
  | .table cs => [.table (transformListC ct cs)]
  | .table_row cs => [.table_row (transformListC ct cs)]
  | .table_cell cs => [.table_cell (transformListC ct cs)]
  | .table_header cs => [.table_header (transformListC ct cs)]
  | .doc cs => [.doc (transformListC ct cs)]

/-- `transformNode` flattened over a children list. -/
def transformListC (ct : CommentTexts) : List PNode → List PNode
  | [] => []
  | n :: rest => transformNodeC ct n ++ transformListC ct rest

end

/-- `applyCommentMarks` from markdown.ts: no-op on an empty comment table;
otherwise transform the document and take the first result (the root
transform of a non-text node always returns a singleton). -/
def applyCommentMarks (d : PNode) (ct : CommentTexts) : PNode :=
  if ct.isEmpty then d
  else
    match transformNodeC ct d with
    | r :: _ => r
    | [] => d

mutual

/-- Whether any text leaf of the tree carries a comment mark. -/
def hasCommentMarkNode : PNode → Bool
  | .text _ marks => marks.any isCommentMark
  | .image _ => false
  | .hard_break => false
  | .horizontal_rule => false
  | .paragraph cs => hasCommentMarkList cs
  | .heading _ cs => hasCommentMarkList cs
  | .blockquote cs => hasCommentMarkList cs
  | .bullet_list cs => hasCommentMarkList cs
  | .ordered_list _ cs => hasCommentMarkList cs
  | .list_item cs => hasCommentMarkList cs
  | .table cs => hasCommentMarkList cs
  | .table_row cs => hasCommentMarkList cs
  | .table_cell cs => hasCommentMarkList cs
  | .table_header cs => hasCommentMarkList cs
  | .doc cs => hasCommentMarkList cs

/-- Comment-mark search over a children list. -/
def hasCommentMarkList : List PNode → Bool
  | [] => false
  | n :: rest => hasCommentMarkNode n || hasCommentMarkList rest

end

/-! ## Comment preprocessing and the parse pipeline (markdown.ts,
`preprocessComments` / `markdownParser.parse` / `getContentFromTokens`)

The comment regex
`<!-- COMMENT: "((?:[^"\\]|\\.)*)" -->([\s\S]*?)<!-- \/COMMENT -->` is
translated as follows: the escaped-string alternation `(?:[^"\\]|\\.)*`
is deterministic on its first character (a backslash always takes the
`\\.` branch, a quote stops, anything else takes `[^"\\]`), so its
possible stopping points form a chain; greedy matching with backtracking
over the rest of the pattern tries the longest stop first
(`escapeStops` + reverse + first success). -/

/-- `<!-- COMMENT: "`. -/
def commentOpen : List Char := jsStr "<!-- COMMENT: \""

/-- `" -->` (closing quote and arrow after the escaped text). -/
def commentArrow : List Char := jsStr "\" -->"

/-- `<!-- /COMMENT -->`. -/
def commentClose : List Char := jsStr "<!-- /COMMENT -->"

/-- All stopping points of the escaped-string alternation
`(?:[^"\\]|\\.)*` on `l`, in increasing order of consumed prefix:
pairs (consumed prefix, rest). -/
def escapeStops : List Char → List (List Char × List Char)
  | [] => [([], [])]
  | '"' :: rest => [([], '"' :: rest)]
  | ['\\'] => [([], ['\\'])]
  | '\\' :: c :: rest =>
    ([], '\\' :: c :: rest) ::
      (escapeStops rest).map (fun pr => ('\\' :: c :: pr.1, pr.2))
  | c :: rest =>
    ([], c :: rest) :: (escapeStops rest).map (fun pr => (c :: pr.1, pr.2))

/-- Match the whole comment regex at the start of `l`: opening literal,
greedy escaped text (longest stop whose rest continues with `" -->`,
then a successful lazy middle up to `<!-- /COMMENT -->`), returning
(escaped text, highlighted text, rest). -/
def matchCommentAt (l : List Char) : Option (List Char × List Char × List Char) :=
  if commentOpen.isPrefixOf l then
    ((escapeStops (l.drop commentOpen.length)).reverse.filterMap (fun pr =>
      if commentArrow.isPrefixOf pr.2 then
        match findLazyEnd commentClose (pr.2.drop commentArrow.length) with
        | some (hl, after) => some (pr.1, hl, after)
        | none => none
      else none)).head?
  else none

/-- Leftmost comment match: (before, escaped text, highlighted, rest). -/
def findCommentMatch : List Char → Option (List Char × List Char × List Char × List Char)
  | [] => none
  | c :: rest =>
    match matchCommentAt (c :: rest) with
    | some (esc, hl, after) => some ([], esc, hl, after)
    | none =>
      match findCommentMatch rest with
      | some (b, esc, hl, after) => some (c :: b, esc, hl, after)
      | none => none

/-- The global-replace loop of `preprocessComments`: each match is
replaced by `START(idx) highlighted END(idx)` sentinels and records
`idx ↦ unescaped comment text`; `idx` counts up from 0 in match order.
Fuelled like the other replace loops. -/
def preprocessCommentsGo : Nat → List Char → Nat → List Char × CommentTexts
  | 0, content, _ => (content, [])
  | fuel + 1, content, idx =>
    match findCommentMatch content with
    | none => (content, [])
    | some (before, esc, hl, after) =>
      (before ++ (CMTS ++ natRepr idx ++ CMTS ++ hl ++ CMTE ++ natRepr idx ++ CMTE) ++
         (preprocessCommentsGo fuel after (idx + 1)).1,
       (idx, unescapeCommentText esc) :: (preprocessCommentsGo fuel after (idx + 1)).2)

/-- `preprocessComments` from markdown.ts. -/
def preprocessComments (content : List Char) : List Char × CommentTexts :=
  preprocessCommentsGo (content.length + 1) content 0

/-- The table-range scan of `markdownParser.parse`: remembers the index
of the last unmatched `table_open` (`tableStart`, `none` = -1) and closes
a range at each `table_close`. -/
def findTableRangesGo : List Tok → Nat → Option Nat → List (Nat × Nat)
  | [], _, _ => []
  | t :: rest, i, st =>
    match t.kind with
    | .table_open => findTableRangesGo rest (i + 1) (some i)
    | .table_close =>
      match st with
      | some s => (s, i) :: findTableRangesGo rest (i + 1) none
      | none => findTableRangesGo rest (i + 1) none
    | _ => findTableRangesGo rest (i + 1) st

/-- JavaScript `content.split('\n')`. -/
def splitLines : List Char → List (List Char)
  | [] => [[]]
  | c :: rest =>
    if c = '\n' then [] :: splitLines rest
    else
      match splitLines rest with
      | l :: ls => (c :: l) :: ls
      | [] => [[c]]

/-- JavaScript `lines.join('\n')`. -/
def joinLines : List (List Char) → List Char
  | [] => []
  | [l] => l
  | l :: rest => l ++ '\n' :: joinLines rest

/-- `getContentFromTokens` from markdown.ts: the source lines spanned by
the `map` line-ranges of the tokens in `[startIdx, endIdx)`; empty when
no token in the range has a line map. -/
def getContentFromTokens (content : List Char) (tokens : List Tok)
    (startIdx endIdx : Nat) : List Char :=
  match ((tokens.drop startIdx).take (endIdx - startIdx)).filterMap Tok.lineMap with
  | [] => []
  | r :: rs =>
    joinLines (((splitLines content).drop ((rs.map Prod.fst).foldl min r.1)).take
      ((rs.map Prod.snd).foldl max r.2 - (rs.map Prod.fst).foldl min r.1))

/-- The external dependencies of the parse pipeline: the markdown-it
tokenizer (`md.parse`) and the prosemirror-markdown base parser
(`baseMarkdownParser.parse`), neither of which is code under src/. -/
structure ExternalMD where
  tokenize : List Char → List Tok
  baseParse : List Char → Option PNode

/-- The gap/table assembly loop of `markdownParser.parse`: for each table
range, parse the non-blank source slice before it with the base parser
(appending the resulting document's children), then the table tokens with
`parseTableTokens`; after the last range, parse the remaining slice. -/
def assembleGo (ext : ExternalMD) (content : List Char) (tokens : List Tok) :
    List (Nat × Nat) → Nat → List PNode
  | [], lastEnd =>
    if lastEnd < tokens.length then
      if (jsTrim (getContentFromTokens content tokens lastEnd tokens.length)).isEmpty then []
      else
        match ext.baseParse (getContentFromTokens content tokens lastEnd tokens.length) with
        | some dd => childrenOf dd
        | none => []
    else []
  | (s, e) :: ranges, lastEnd =>
    (if lastEnd < s then
      if ((tokens.drop lastEnd).take (s - lastEnd)).isEmpty then []
      else if (jsTrim (getContentFromTokens content tokens lastEnd s)).isEmpty then []
      else
        match ext.baseParse (getContentFromTokens content tokens lastEnd s) with
        | some dd => childrenOf dd
        | none => []
    else []) ++
    (match parseTableTokens ((tokens.drop s).take (e + 1 - s)) with
     | some tb => [tb]
     | none => []) ++
    assembleGo ext content tokens ranges (e + 1)

/-- The no-table branch of `markdownParser.parse`: base-parse the whole
processed content, then run both postprocessors. -/
def parseNoTables (ext : ExternalMD) (c2 : List Char) (imgAttrs : AttrMap)
    (ct : CommentTexts) : Option PNode :=
  match ext.baseParse c2 with
  | none => none
  | some d => some (applyCommentMarks (applyImageAttributes d imgAttrs) ct)

/-- The table branch of `markdownParser.parse`: assemble children from
gaps and tables; with zero children return a document holding exactly one
empty paragraph (returned directly, skipping the postprocessors);
otherwise postprocess the assembled document. -/
def parseWithTables (ext : ExternalMD) (c2 : List Char) (imgAttrs : AttrMap)
    (ct : CommentTexts) (tokens : List Tok) (ranges : List (Nat × Nat)) :
    Option PNode :=
  if (assembleGo ext c2 tokens ranges 0).isEmpty then
    some (PNode.doc [PNode.paragraph []])
  else
    some (applyCommentMarks
      (applyImageAttributes (PNode.doc (assembleGo ext c2 tokens ranges 0)) imgAttrs) ct)

/-- `markdownParser.parse` from markdown.ts: preprocess comments, then
HTML images, tokenize, find table ranges, and dispatch on their
presence. -/
def markdownParse (ext : ExternalMD) (content : List Char) : Option PNode :=
  if (findTableRangesGo
      (ext.tokenize (preprocessHtmlImages (preprocessComments content).1).1) 0 none).isEmpty then
    parseNoTables ext (preprocessHtmlImages (preprocessComments content).1).1
      (preprocessHtmlImages (preprocessComments content).1).2
      (preprocessComments content).2
  else
    parseWithTables ext (preprocessHtmlImages (preprocessComments content).1).1
      (preprocessHtmlImages (preprocessComments content).1).2
      (preprocessComments content).2
      (ext.tokenize (preprocessHtmlImages (preprocessComments content).1).1)
      (findTableRangesGo
        (ext.tokenize (preprocessHtmlImages (preprocessComments content).1).1) 0 none)

theorem replaceAll_append (c : Char) (s a b : List Char) :
    replaceAll c s (a ++ b) = replaceAll c s a ++ replaceAll c s b := by
  induction a with
  | nil => simp [replaceAll]
  | cons x t ih => simp [replaceAll, ih]

theorem escape_cons (c : Char) (t : List Char) :
    escapeCommentText (c :: t) = escChar c ++ escapeCommentText t := by
  by_cases h1 : c = '\\'
  · subst h1
    simp [escapeCommentText, replaceAll, replaceAll_append, escChar]
  · by_cases h2 : c = '"'
    · subst h2
      simp [escapeCommentText, replaceAll, replaceAll_append, escChar]
    · by_cases h3 : c = '\n'
      · subst h3
        simp [escapeCommentText, replaceAll, replaceAll_append, escChar]
      · by_cases h4 : c = '\r'
        · subst h4
          simp [escapeCommentText, replaceAll, replaceAll_append, escChar]
        · by_cases h5 : c = '\t'
          · subst h5
            simp [escapeCommentText, replaceAll, replaceAll_append, escChar]
          · simp [escapeCommentText, replaceAll, replaceAll_append, escChar,
              h1, h2, h3, h4, h5]

theorem unescape_escChar (c : Char) (l : List Char) :
    unescapeCommentText (escChar c ++ l) = c :: unescapeCommentText l := by
  by_cases h1 : c = '\\'
  · subst h1; simp [escChar, unescapeCommentText]
  · by_cases h2 : c = '"'
    · subst h2; simp [escChar, unescapeCommentText]
    · by_cases h3 : c = '\n'
      · subst h3; simp [escChar, unescapeCommentText]
      · by_cases h4 : c = '\r'
        · subst h4; simp [escChar, unescapeCommentText]
        · by_cases h5 : c = '\t'
          · subst h5; simp [escChar, unescapeCommentText]
          · have hc : escChar c = [c] := by
              simp [escChar, h1, h2, h3, h4, h5]
            rw [hc]
            cases l with
            | nil => simp [unescapeCommentText]
            | cons x xs => simp [unescapeCommentText, h1]

/-- C1: for every string `t`, `unescapeCommentText (escapeCommentText t) = t`:
the comment-text escaping used when serializing comment marks is exactly
inverted by the unescaping used when parsing them, for all strings, in
particular strings mixing backslash, double quote, newline, carriage return
and tab. -/
theorem C1_escape_unescape_roundtrip (t : List Char) :
    unescapeCommentText (escapeCommentText t) = t := by
  induction t with
  | nil => simp [escapeCommentText, replaceAll, unescapeCommentText]
  | cons c t ih => rw [escape_cons, unescape_escChar, ih]

theorem hardBreakScan_eq_any (l : List PNode) :
    hardBreakScan l =
      if l.any (fun n => !(isHardBreak n)) then [' ', ' ', '\n'] else [] := by
  induction l with
  | nil => simp [hardBreakScan]
  | cons n rest ih =>
    cases h : isHardBreak n with
    | true => simp [hardBreakScan, h, ih]
    | false => simp [hardBreakScan, h]

/-- C3 counterexample: the claim says a `hard_break` whose immediately
next sibling is itself a `hard_break` emits nothing; but for the parent
children `[hard_break, hard_break, text]` the serializer scans past the
second `hard_break`, finds the text sibling, and emits `"  \n"` for the
first `hard_break`. -/
theorem C3_counterexample :
    ¬ ∀ (parent : List PNode) (index : Nat),
        parent.get? (index + 1) = some PNode.hard_break →
        hardBreakSerialize parent index = [] := by
  intro hclaim
  have h :=
    hclaim [PNode.hard_break, PNode.hard_break, PNode.text [' '] []] 0 rfl
  simp [hardBreakSerialize, hardBreakScan, isHardBreak] at h

/-- C3 (amended): a `hard_break` node at position `index` of its parent
emits `"  \n"` iff some later sibling's type differs from `hard_break`,
and emits nothing iff every following sibling (possibly none) is itself a
`hard_break`; so redundant breaks are suppressed only at the end of the
parent, not between consecutive hard breaks that are followed by other
content. -/
theorem C3_hard_break_emission (parent : List PNode) (index : Nat) :
    hardBreakSerialize parent index =
      if (parent.drop (index + 1)).any (fun n => !(isHardBreak n)) then
        [' ', ' ', '\n']
      else [] := by
  unfold hardBreakSerialize
  exact hardBreakScan_eq_any _

theorem parseTableTokensGo_cell (cell : Bool × List InlineTok) (rest : List Tok)
    (rows currentRow : List PNode) :
    parseTableTokensGo (cellToks cell ++ rest) rows currentRow none [] =
      parseTableTokensGo rest rows (currentRow ++ [expectedCell cell]) none [] := by
  obtain ⟨h, cs⟩ := cell
  cases h <;>
    simp [cellToks, mkTok, mkInlineTok, parseTableTokensGo, expectedCell, cellNodeOf]

theorem parseTableTokensGo_cells (cells : List (Bool × List InlineTok))
    (rest : List Tok) (rows currentRow : List PNode) :
    parseTableTokensGo ((cells.flatMap cellToks) ++ rest) rows currentRow none [] =
      parseTableTokensGo rest rows (currentRow ++ cells.map expectedCell) none [] := by
  induction cells generalizing currentRow with
  | nil => simp
  | cons c cs ih =>
    rw [List.flatMap_cons, List.append_assoc, parseTableTokensGo_cell, ih,
      List.append_assoc]
    simp

theorem parseTableTokensGo_row (cells : List (Bool × List InlineTok))
    (rest : List Tok) (rows cr : List PNode) (hne : cells ≠ []) :
    parseTableTokensGo (rowToks cells ++ rest) rows cr none [] =
      parseTableTokensGo rest (rows ++ [expectedRow cells])
        (cells.map expectedCell) none [] := by
  have hmapne : cells.map expectedCell ≠ [] := by
    simpa using hne
  have h1 : rowToks cells ++ rest =
      mkTok TokKind.tr_open ::
        (cells.flatMap cellToks ++ ([mkTok TokKind.tr_close] ++ rest)) := by
    simp [rowToks]
  rw [h1]
  rw [show parseTableTokensGo
        (mkTok TokKind.tr_open ::
          (cells.flatMap cellToks ++ ([mkTok TokKind.tr_close] ++ rest)))
        rows cr none [] =
      parseTableTokensGo (cells.flatMap cellToks ++ ([mkTok TokKind.tr_close] ++ rest))
        rows [] none [] from rfl]
  rw [parseTableTokensGo_cells]
  simp only [List.nil_append]
  show parseTableTokensGo (mkTok TokKind.tr_close :: rest) rows
      (cells.map expectedCell) none [] = _
  simp [parseTableTokensGo, mkTok, List.isEmpty_iff, hmapne, expectedRow]

theorem parseTableTokensGo_rows (rowsD : List (List (Bool × List InlineTok)))
    (rest : List Tok) (rows cr : List PNode)
    (hrows : ∀ r ∈ rowsD, r ≠ []) :
    ∃ cr2, parseTableTokensGo ((rowsD.flatMap rowToks) ++ rest) rows cr none [] =
      parseTableTokensGo rest (rows ++ rowsD.map expectedRow) cr2 none [] := by
  induction rowsD generalizing rows cr with
  | nil => exact ⟨cr, by simp⟩
  | cons r rs ih =>
    rw [List.flatMap_cons, List.append_assoc,
      parseTableTokensGo_row r _ rows cr (hrows r (by simp))]
    obtain ⟨cr2, hcr2⟩ := ih (rows ++ [expectedRow r]) (r.map expectedCell)
      (fun x hx => hrows x (by simp [hx]))
    exact ⟨cr2, by rw [hcr2]; simp⟩

/-- C6: for every balanced table token sequence (a `table_open`, a
nonempty list of rows each opened by `tr_open`, holding a nonempty list of
cells each of the form cell-open / inline / cell-close, then `tr_close`,
then `table_close`), `parseTableTokens` returns a table in which every
cell wraps exactly one paragraph (an empty paragraph when the cell's
inline token has no text children), the cell is a header cell iff it was
opened by a `th_open` token, and the paragraph's content is exactly the
literal text of the text tokens — nested mark tokens (strong/em open and
close) and all other inline children are discarded. -/
theorem C6_parse_table_tokens (rowsD : List (List (Bool × List InlineTok)))
    (hne : rowsD ≠ []) (hrows : ∀ r ∈ rowsD, r ≠ []) :
    parseTableTokens (tableToks rowsD) =
      some (PNode.table (rowsD.map expectedRow)) := by
  unfold parseTableTokens tableToks
  have hmapne : rowsD.map expectedRow ≠ [] := by simpa using hne
  show parseTableTokensGo
      (mkTok TokKind.table_open :: (rowsD.flatMap rowToks ++ [mkTok TokKind.table_close]))
      [] [] none [] = _
  rw [show parseTableTokensGo
        (mkTok TokKind.table_open :: (rowsD.flatMap rowToks ++ [mkTok TokKind.table_close]))
        [] [] none [] =
      parseTableTokensGo (rowsD.flatMap rowToks ++ [mkTok TokKind.table_close])
        [] [] none [] from rfl]
  obtain ⟨cr2, hcr2⟩ := parseTableTokensGo_rows rowsD [mkTok TokKind.table_close] [] [] hrows
  rw [hcr2]
  simp [parseTableTokensGo, mkTok, List.isEmpty_iff, hmapne]

/-- C6 witness: a concrete 2×2 balanced table token sequence — header row
with cells "A" (followed by a discarded `strong_open` child) and "B", data
row with cell "1" and an empty cell — parses to header cells iff opened by
`th_open`, one paragraph per cell, text children only. -/
theorem C6_witness :
    ([[(true, [InlineTok.text (jsStr "A"), InlineTok.strong_open]),
       (true, [InlineTok.text (jsStr "B")])],
      [(false, [InlineTok.text (jsStr "1")]), (false, [])]] ≠
        ([] : List (List (Bool × List InlineTok))))
    ∧ parseTableTokens (tableToks
        [[(true, [InlineTok.text (jsStr "A"), InlineTok.strong_open]),
          (true, [InlineTok.text (jsStr "B")])],
         [(false, [InlineTok.text (jsStr "1")]), (false, [])]]) =
      some (PNode.table
        [PNode.table_row
          [PNode.table_header [PNode.paragraph [PNode.text (jsStr "A") []]],
           PNode.table_header [PNode.paragraph [PNode.text (jsStr "B") []]]],
         PNode.table_row
          [PNode.table_cell [PNode.paragraph [PNode.text (jsStr "1") []]],
           PNode.table_cell [PNode.paragraph []]]]) := by
  constructor
  · simp
  · rw [C6_parse_table_tokens _ (by simp) (by decide)]
    rfl

theorem natReprAux_zero (fuel : Nat) : natReprAux fuel 0 = [] := by
  cases fuel <;> rfl

theorem natReprAux_length (fuel n : Nat) (hn : n ≠ 0) (hf : n ≤ fuel) :
    (natReprAux fuel n).length = Nat.log 10 n + 1 := by
  induction fuel generalizing n with
  | zero => omega
  | succ fuel ih =>
    cases n with
    | zero => omega
    | succ m =>
      by_cases hlt : m + 1 < 10
      · have hdiv : (m + 1) / 10 = 0 := Nat.div_eq_of_lt hlt
        have hlog : Nat.log 10 (m + 1) = 0 := Nat.log_of_lt hlt
        simp [natReprAux, hdiv, natReprAux_zero, hlog]
      · have hge : 10 ≤ m + 1 := by omega
        have hdiv_ne : (m + 1) / 10 ≠ 0 := by
          have : 1 ≤ (m + 1) / 10 := (Nat.one_le_div_iff (by norm_num)).mpr hge
          omega
        have hdiv_le : (m + 1) / 10 ≤ fuel := by
          have : (m + 1) / 10 < m + 1 := Nat.div_lt_self (by omega) (by norm_num)
          omega
        have hlog_ne : Nat.log 10 (m + 1) ≠ 0 := by
          rw [Ne, Nat.log_eq_zero_iff]
          omega
        have hrec : Nat.log 10 ((m + 1) / 10) = Nat.log 10 (m + 1) - 1 :=
          Nat.log_div_base 10 (m + 1)
        have := ih ((m + 1) / 10) hdiv_ne hdiv_le
        simp only [natReprAux, List.length_append, List.length_cons,
          List.length_nil, this]
        omega

theorem natRepr_length_of_ne_zero (n : Nat) (h : n ≠ 0) :
    (natRepr n).length = Nat.log 10 n + 1 := by
  unfold natRepr
  rw [if_neg h]
  exact natReprAux_length n n h (le_refl n)

theorem natRepr_length_mono (m n : Nat) (hm : m ≠ 0) (hmn : m ≤ n) :
    (natRepr m).length ≤ (natRepr n).length := by
  have hn : n ≠ 0 := by omega
  rw [natRepr_length_of_ne_zero m hm, natRepr_length_of_ne_zero n hn]
  have := Nat.log_mono_right (b := 10) hmn
  omega

theorem listMax_cons (x : Nat) (l : List Nat) : listMax (x :: l) = max x (listMax l) :=
  rfl

theorem le_listMax_of_mem {x : Nat} {l : List Nat} (h : x ∈ l) : x ≤ listMax l := by
  induction l with
  | nil => simp at h
  | cons y t ih =>
    rcases List.mem_cons.mp h with h1 | h2
    · subst h1
      rw [listMax_cons]
      exact Nat.le_max_left _ _
    · exact le_trans (ih h2) (by rw [listMax_cons]; exact Nat.le_max_right _ _)

theorem colWidthFold_aux (col : Nat) (rows : List (List (List Char))) (a : Nat) :
    rows.foldl (fun acc row =>
      match row.get? col with
      | some s => if s.isEmpty then acc else max acc s.length
      | none => acc) a
    = max a (listMax (rows.map (fun r => ((r.get? col).getD []).length))) := by
  induction rows generalizing a with
  | nil => simp [listMax]
  | cons r t ih =>
    rw [List.foldl_cons, ih]
    have hstep : (match r.get? col with
        | some s => if s.isEmpty then a else max a s.length
        | none => a) = max a ((r.get? col).getD []).length := by
      cases h : r.get? col with
      | none => simp
      | some s =>
        by_cases he : s.isEmpty
        · have hs : s = [] := List.isEmpty_iff.mp he
          subst hs
          simp
        · have hle : s.isEmpty = false := by
            cases hb : s.isEmpty
            · rfl
            · exact absurd hb he
          simp [hle]
    rw [hstep]
    simp [listMax_cons, Nat.max_assoc]

theorem colWidthFold_eq (rows : List (List (List Char))) (col : Nat) :
    colWidthFold rows col =
      max 3 (listMax (rows.map (fun r => ((r.get? col).getD []).length))) :=
  colWidthFold_aux col rows 3

theorem cell_le_colWidth (rows : List (List (List Char))) (row : List (List Char))
    (col : Nat) (h : row ∈ rows) :
    ((row.get? col).getD []).length ≤ colWidthFold rows col := by
  rw [colWidthFold_eq]
  exact le_trans
    (le_listMax_of_mem (List.mem_map_of_mem (fun r => ((r.get? col).getD []).length) h))
    (Nat.le_max_right _ _)

theorem padEnd_length_of_le (s : List Char) (w : Nat) (h : s.length ≤ w) :
    (padEnd s w).length = w := by
  unfold padEnd
  rw [List.length_append, List.length_replicate]
  omega

theorem rowLine_length (rows : List (List (List Char))) (row : List (List Char))
    (colCount : Nat)
    (h : ∀ col, ((row.get? col).getD []).length ≤ colWidthFold rows col) :
    (rowLine rows row colCount).length =
      1 + ((List.range colCount).map (fun col => colWidthFold rows col + 3)).sum := by
  unfold rowLine
  have hmap : (List.range colCount).map
      (List.length ∘ fun col =>
        ' ' :: padEnd ((row.get? col).getD []) (colWidthFold rows col) ++ [' ', '|'])
      = (List.range colCount).map (fun col => colWidthFold rows col + 3) := by
    apply List.map_congr_left
    intro col _
    show (' ' :: padEnd ((row.get? col).getD []) (colWidthFold rows col)
      ++ [' ', '|']).length = _
    rw [List.length_append, List.length_cons,
      padEnd_length_of_le _ _ (h col)]
    simp only [List.length_cons, List.length_nil]
  rw [List.length_cons, List.length_flatMap, hmap]
  omega

theorem sepLine_length (rows : List (List (List Char))) (colCount : Nat) :
    (sepLine rows colCount).length =
      1 + ((List.range colCount).map (fun col => colWidthFold rows col + 3)).sum := by
  unfold sepLine
  have hmap : (List.range colCount).map
      (List.length ∘ fun col =>
        ' ' :: List.replicate (colWidthFold rows col) '-' ++ [' ', '|'])
      = (List.range colCount).map (fun col => colWidthFold rows col + 3) := by
    apply List.map_congr_left
    intro col _
    show (' ' :: List.replicate (colWidthFold rows col) '-'
      ++ [' ', '|']).length = _
    rw [List.length_append, List.length_cons, List.length_replicate]
    simp only [List.length_cons, List.length_nil]
  rw [List.length_cons, List.length_flatMap, hmap]
  omega

theorem writeRowsLoop_pos (allRows : List (List (List Char))) (colCount : Nat)
    (hasHeader : Bool) (rest : List (List (List Char))) (i : Nat) (hi : i ≠ 0) :
    writeRowsLoop allRows colCount hasHeader rest i =
      rest.map (fun r => rowLine allRows r colCount) := by
  induction rest generalizing i with
  | nil => simp [writeRowsLoop]
  | cons r t ih =>
    rw [writeRowsLoop, if_neg (by simp [hi]), List.nil_append, ih (i + 1) (by omega)]
    rfl

theorem serializeTableLines_structure (t : PNode) (hne : collectRows t ≠ []) :
    serializeTableLines t =
      rowLine (collectRows t) ((collectRows t).headD []) (tableColCount (collectRows t)) ::
        ((if tableHasHeaderRow t ∨ 1 < (collectRows t).length then
            [sepLine (collectRows t) (tableColCount (collectRows t))]
          else []) ++
          (collectRows t).tail.map
            (fun r => rowLine (collectRows t) r (tableColCount (collectRows t)))) := by
  obtain ⟨r0, rest, hr⟩ : ∃ r0 rest, collectRows t = r0 :: rest := by
    cases hcr : collectRows t with
    | nil => exact absurd hcr hne
    | cons a b => exact ⟨a, b, rfl⟩
  unfold serializeTableLines
  rw [hr]
  rw [if_neg (by simp)]
  rw [writeRowsLoop, writeRowsLoop_pos _ _ _ _ 1 (by omega)]
  simp

/-- C7: for every table node with at least one row: (a) each column is
padded to width max(3, longest cell text in that column); (b) every line
of the serialized table (content rows and the separator alike) has the
same length, so every row has equal line length between pipes; (c) the
separator row is emitted exactly after row 0, and exactly when a
header-typed cell exists anywhere in the table or the table has more than
one row. -/
theorem C7_serialize_table (t : PNode) (hne : collectRows t ≠ []) :
    (∀ col, colWidthFold (collectRows t) col =
      max 3 (listMax ((collectRows t).map (fun r => ((r.get? col).getD []).length))))
    ∧ (∀ l1 ∈ serializeTableLines t, ∀ l2 ∈ serializeTableLines t,
        l1.length = l2.length)
    ∧ serializeTableLines t =
      rowLine (collectRows t) ((collectRows t).headD []) (tableColCount (collectRows t)) ::
        ((if tableHasHeaderRow t ∨ 1 < (collectRows t).length then
            [sepLine (collectRows t) (tableColCount (collectRows t))]
          else []) ++
          (collectRows t).tail.map
            (fun r => rowLine (collectRows t) r (tableColCount (collectRows t)))) := by
  refine ⟨fun col => colWidthFold_eq _ _, ?_, serializeTableLines_structure t hne⟩
  have hall : ∀ l ∈ serializeTableLines t,
      l.length = 1 + ((List.range (tableColCount (collectRows t))).map
        (fun col => colWidthFold (collectRows t) col + 3)).sum := by
    intro l hl
    rw [serializeTableLines_structure t hne] at hl
    rcases List.mem_cons.mp hl with h0 | hrest
    · subst h0
      apply rowLine_length
      intro col
      apply cell_le_colWidth
      cases hcr : collectRows t with
      | nil => exact absurd hcr hne
      | cons a b => simp [hcr]
    · rcases List.mem_append.mp hrest with hsep | htail
      · have : l = sepLine (collectRows t) (tableColCount (collectRows t)) := by
          by_cases hc : tableHasHeaderRow t ∨ 1 < (collectRows t).length
          · rw [if_pos hc] at hsep
            simpa using hsep
          · rw [if_neg hc] at hsep
            simp at hsep
        subst this
        exact sepLine_length _ _
      · obtain ⟨r, hrmem, hrl⟩ := List.mem_map.mp htail
        subst hrl
        apply rowLine_length
        intro col
        apply cell_le_colWidth
        exact List.mem_of_mem_tail hrmem
  intro l1 h1 l2 h2
  rw [hall l1 h1, hall l2 h2]

/-- C7 witness: a concrete one-row table with a header cell "A" and an
empty data cell; the hypothesis (at least one row) holds and the three
properties follow by the theorem. -/
theorem C7_witness :
    collectRows (PNode.table [PNode.table_row
        [PNode.table_header [PNode.paragraph [PNode.text (jsStr "A") []]],
         PNode.table_cell [PNode.paragraph []]]]) ≠ []
    ∧ ((∀ col, colWidthFold (collectRows (PNode.table [PNode.table_row
        [PNode.table_header [PNode.paragraph [PNode.text (jsStr "A") []]],
         PNode.table_cell [PNode.paragraph []]]])) col =
      max 3 (listMax ((collectRows (PNode.table [PNode.table_row
        [PNode.table_header [PNode.paragraph [PNode.text (jsStr "A") []]],
         PNode.table_cell [PNode.paragraph []]]])).map
          (fun r => ((r.get? col).getD []).length))))
    ∧ (∀ l1 ∈ serializeTableLines (PNode.table [PNode.table_row
        [PNode.table_header [PNode.paragraph [PNode.text (jsStr "A") []]],
         PNode.table_cell [PNode.paragraph []]]]),
       ∀ l2 ∈ serializeTableLines (PNode.table [PNode.table_row
        [PNode.table_header [PNode.paragraph [PNode.text (jsStr "A") []]],
         PNode.table_cell [PNode.paragraph []]]]), l1.length = l2.length)
    ∧ serializeTableLines (PNode.table [PNode.table_row
        [PNode.table_header [PNode.paragraph [PNode.text (jsStr "A") []]],
         PNode.table_cell [PNode.paragraph []]]]) =
      rowLine (collectRows (PNode.table [PNode.table_row
        [PNode.table_header [PNode.paragraph [PNode.text (jsStr "A") []]],
         PNode.table_cell [PNode.paragraph []]]]))
        ((collectRows (PNode.table [PNode.table_row
        [PNode.table_header [PNode.paragraph [PNode.text (jsStr "A") []]],
         PNode.table_cell [PNode.paragraph []]]])).headD [])
        (tableColCount (collectRows (PNode.table [PNode.table_row
        [PNode.table_header [PNode.paragraph [PNode.text (jsStr "A") []]],
         PNode.table_cell [PNode.paragraph []]]]))) ::
        ((if tableHasHeaderRow (PNode.table [PNode.table_row
        [PNode.table_header [PNode.paragraph [PNode.text (jsStr "A") []]],
         PNode.table_cell [PNode.paragraph []]]]) ∨
            1 < (collectRows (PNode.table [PNode.table_row
        [PNode.table_header [PNode.paragraph [PNode.text (jsStr "A") []]],
         PNode.table_cell [PNode.paragraph []]]])).length then
            [sepLine (collectRows (PNode.table [PNode.table_row
        [PNode.table_header [PNode.paragraph [PNode.text (jsStr "A") []]],
         PNode.table_cell [PNode.paragraph []]]]))
              (tableColCount (collectRows (PNode.table [PNode.table_row
        [PNode.table_header [PNode.paragraph [PNode.text (jsStr "A") []]],
         PNode.table_cell [PNode.paragraph []]]])))]
          else []) ++
          (collectRows (PNode.table [PNode.table_row
        [PNode.table_header [PNode.paragraph [PNode.text (jsStr "A") []]],
         PNode.table_cell [PNode.paragraph []]]])).tail.map
            (fun r => rowLine (collectRows (PNode.table [PNode.table_row
        [PNode.table_header [PNode.paragraph [PNode.text (jsStr "A") []]],
         PNode.table_cell [PNode.paragraph []]]])) r
              (tableColCount (collectRows (PNode.table [PNode.table_row
        [PNode.table_header [PNode.paragraph [PNode.text (jsStr "A") []]],
         PNode.table_cell [PNode.paragraph []]]])))))) :=
  ⟨by simp [collectRows, childrenOf],
   C7_serialize_table _ (by simp [collectRows, childrenOf])⟩

theorem imageSerialize_custom_prefix (esc : List Char → List Char) (a : ImageAttrs)
    (h : imageHasCustomAttrs a = true) :
    ['<', 'i', 'm', 'g'] <+: imageSerialize esc a := by
  unfold imageSerialize
  rw [if_pos h]
  have hlit : jsStr "<img" = ['<', 'i', 'm', 'g'] := rfl
  simp only [List.append_assoc, hlit]
  exact List.prefix_append _ _

theorem imageSerialize_default_shape (esc : List Char → List Char) (a : ImageAttrs)
    (h : imageHasCustomAttrs a = false) :
    ['!', '['] <+: imageSerialize esc a
    ∧ ¬ ['<', 'i', 'm', 'g'] <+: imageSerialize esc a := by
  unfold imageSerialize
  rw [if_neg (by simp [h])]
  have hlit : jsStr "![" = ['!', '['] := rfl
  simp only [List.append_assoc, hlit]
  constructor
  · exact List.prefix_append _ _
  · intro hpre
    have : ('<' :: ['i', 'm', 'g']) <+: ('!' :: ('[' :: ([] ++
        (esc (match a.alt with | some alt => alt | none => []) ++
          (jsStr "](" ++ (imageMarkdownSrc a ++
            ((match a.title with
              | some ti => if ti.isEmpty then [] else jsStr " \"" ++ replaceQuotEsc ti ++ ['"']
              | none => []) ++ [')']))))))) := hpre
    have hh := (List.cons_prefix_cons.mp this).1
    exact absurd hh (by decide)

/-- C8: for every image node whose attributes lie in the domain the schema
documents (align a nonempty string, width a percentage ≥ 1), the
serializer emits an HTML `<img` tag iff align ≠ 'inline' or width ≠ 100;
with align = 'inline' and width = 100 it always emits bare markdown image
syntax `![`, never an `<img` tag.  This holds for every escaping function
`esc` the writer may use. -/
theorem C8_image_default_elision (esc : List Char → List Char) (a : ImageAttrs)
    (s : List Char) (w : Nat)
    (ha : a.align = some s) (hs : s ≠ []) (hw : a.width = some w) (hw1 : 1 ≤ w) :
    (['<', 'i', 'm', 'g'] <+: imageSerialize esc a ↔
      (s ≠ jsStr "inline" ∨ w ≠ 100))
    ∧ (s = jsStr "inline" → w = 100 →
        ['!', '['] <+: imageSerialize esc a
        ∧ ¬ ['<', 'i', 'm', 'g'] <+: imageSerialize esc a) := by
  have hsE : s.isEmpty = false := by
    cases hb : s.isEmpty with
    | false => rfl
    | true => exact absurd (List.isEmpty_iff.mp hb) hs
  have hw0 : (w == 0) = false := by
    simp only [beq_eq_false_iff_ne]
    omega
  have hcustom : imageHasCustomAttrs a = true ↔ (s ≠ jsStr "inline" ∨ w ≠ 100) := by
    unfold imageHasCustomAttrs
    rw [ha, hw]
    simp [hsE, hw0]
  constructor
  · constructor
    · intro hpre
      by_contra hcon
      push_neg at hcon
      have hfalse : imageHasCustomAttrs a = false := by
        cases hb : imageHasCustomAttrs a with
        | false => rfl
        | true =>
          rcases hcustom.mp hb with h1 | h1
          · exact absurd hcon.1 h1
          · exact absurd hcon.2 h1
      exact absurd hpre (imageSerialize_default_shape esc a hfalse).2
    · intro hdisj
      exact imageSerialize_custom_prefix esc a (hcustom.mpr hdisj)
  · intro hsi hw100
    apply imageSerialize_default_shape
    cases hb : imageHasCustomAttrs a with
    | false => rfl
    | true =>
      rcases hcustom.mp hb with h1 | h1
      · exact absurd hsi h1
      · exact absurd hw100 h1

/-- C8 witness: an image with align "left" and width 100 — the theorem at
this input says the serialization starts with an `<img` tag (align differs
from 'inline'). -/
theorem C8_witness :
    (({ src := jsStr "a.png", alt := none, title := none,
        align := some (jsStr "left"), width := some 100,
        relativeSrc := none } : ImageAttrs).align = some (jsStr "left"))
    ∧ jsStr "left" ≠ []
    ∧ (1 : Nat) ≤ 100
    ∧ ((['<', 'i', 'm', 'g'] <+:
          imageSerialize id
            { src := jsStr "a.png", alt := none, title := none,
              align := some (jsStr "left"), width := some 100,
              relativeSrc := none } ↔
        (jsStr "left" ≠ jsStr "inline" ∨ (100 : Nat) ≠ 100))
       ∧ (jsStr "left" = jsStr "inline" → (100 : Nat) = 100 →
           ['!', '['] <+:
              imageSerialize id
                { src := jsStr "a.png", alt := none, title := none,
                  align := some (jsStr "left"), width := some 100,
                  relativeSrc := none }
           ∧ ¬ ['<', 'i', 'm', 'g'] <+:
              imageSerialize id
                { src := jsStr "a.png", alt := none, title := none,
                  align := some (jsStr "left"), width := some 100,
                  relativeSrc := none })) :=
  ⟨rfl, by decide, by norm_num,
   C8_image_default_elision id _ (jsStr "left") 100 rfl (by decide) rfl (by norm_num)⟩

/-- C2: the code does NOT clamp the width: for the input
`<img src="a.png" width="150" />` the parser extracts width 150, outside
the documented 1–100 range, and `preprocessHtmlImages` records 150 in the
side table (from which it is applied verbatim to the image node). -/
theorem C2_width_not_clamped :
    (parseHtmlImgTag (jsStr "<img src=\"a.png\" width=\"150\" />")).map
        ImgTagAttrs.width = some (some 150)
    ∧ (preprocessHtmlImages (jsStr "<img src=\"a.png\" width=\"150\" />")).2
        = [(jsStr "a.png", ⟨none, some 150⟩)]
    ∧ ¬ (150 : Nat) ≤ 100 := by
  refine ⟨by decide, by decide, by norm_num⟩

theorem length_dropWhile_le (p : Char → Bool) (l : List Char) :
    (l.dropWhile p).length ≤ l.length := by
  induction l with
  | nil => simp
  | cons c t ih =>
    rw [List.dropWhile_cons]
    by_cases h : p c
    · rw [if_pos h]
      simp only [List.length_cons]
      omega
    · rw [if_neg h]

theorem matchImgTagAt_after_lt (l full attrs after : List Char)
    (h : matchImgTagAt l = some (full, attrs, after)) :
    after.length < l.length := by
  match l with
  | [] => simp [matchImgTagAt] at h
  | [a] => simp [matchImgTagAt] at h
  | [a, b] => simp [matchImgTagAt] at h
  | [a, b, c] => simp [matchImgTagAt] at h
  | a :: c1 :: c2 :: c3 :: rest =>
    simp only [matchImgTagAt] at h
    by_cases hg : a = '<' ∧ c1.toLower = 'i' ∧ c2.toLower = 'm' ∧ c3.toLower = 'g'
    · rw [if_pos hg] at h
      by_cases hws : (rest.takeWhile isJsWs).isEmpty
      · rw [if_pos hws] at h
        exact absurd h (by simp)
      · rw [if_neg hws] at h
        split at h
        · rename_i d tail heq
          by_cases hd : d = '>'
          · rw [if_pos hd] at h
            have hafter : after = tail := by
              simp only [Option.some.injEq, Prod.mk.injEq] at h
              exact h.2.2.symm
            have h1 : tail.length + 1 =
                ((rest.dropWhile isJsWs).dropWhile (fun c => !(c == '>'))).length := by
              rw [heq]
              rfl
            have h2 := length_dropWhile_le (fun c => !(c == '>')) (rest.dropWhile isJsWs)
            have h3 := length_dropWhile_le isJsWs rest
            subst hafter
            simp only [List.length_cons]
            omega
          · rw [if_neg hd] at h
            exact absurd h (by simp)
        · exact absurd h (by simp)
    · rw [if_neg hg] at h
      exact absurd h (by simp)

theorem findImgTagMatch_after_lt (l b full attrs after : List Char)
    (h : findImgTagMatch l = some (b, full, attrs, after)) :
    after.length < l.length := by
  induction l generalizing b full attrs after with
  | nil => simp [findImgTagMatch] at h
  | cons c rest ih =>
    simp only [findImgTagMatch] at h
    split at h
    · rename_i full' attrs' after' heq
      simp only [Option.some.injEq, Prod.mk.injEq] at h
      have hlt := matchImgTagAt_after_lt (c :: rest) full' attrs' after' heq
      rw [h.2.2.2] at hlt
      exact hlt
    · split at h
      · rename_i b' full' attrs' after' heq2
        simp only [Option.some.injEq, Prod.mk.injEq] at h
        have hlt := ih b' full' attrs' after' heq2
        rw [h.2.2.2] at hlt
        simp only [List.length_cons]
        omega
      · exact absurd h (by simp)

theorem mapGet_map_set_eq (m : AttrMap) (k : List Char) (v : ImgExtra)
    (hm : m.any (fun e => e.1 == k) = true) :
    mapGet (m.map (fun e => if e.1 == k then (k, v) else e)) k = some v := by
  induction m with
  | nil => simp at hm
  | cons e t ih =>
    rw [List.map_cons]
    by_cases he : (e.1 == k) = true
    · rw [if_pos he]
      unfold mapGet
      rw [List.find?_cons_of_pos _ (by simp)]
      rfl
    · rw [if_neg he]
      have hm' : t.any (fun e => e.1 == k) = true := by
        simp only [List.any_cons] at hm
        rcases Bool.or_eq_true_iff.mp hm with h1 | h1
        · exact absurd h1 he
        · exact h1
      unfold mapGet
      rw [List.find?_cons_of_neg _ (by simp [he])]
      exact ih hm'

theorem mapGet_map_set_ne (m : AttrMap) (k k' : List Char) (v : ImgExtra)
    (hk : k' ≠ k) :
    mapGet (m.map (fun e => if e.1 == k then (k, v) else e)) k' = mapGet m k' := by
  induction m with
  | nil => rfl
  | cons e t ih =>
    rw [List.map_cons]
    by_cases he : (e.1 == k) = true
    · rw [if_pos he]
      have he1 : e.1 = k := by simpa using he
      have hkk' : ((k, v).1 == k') = false := by
        simp only [beq_eq_false_iff_ne]
        exact fun hc => hk hc.symm
      have he2 : (e.1 == k') = false := by
        rw [he1]
        simpa using hkk'
      unfold mapGet
      rw [List.find?_cons_of_neg _ (by simp [hkk']),
        List.find?_cons_of_neg _ (by simp [he2])]
      exact ih
    · rw [if_neg he]
      by_cases he' : (e.1 == k') = true
      · unfold mapGet
        rw [List.find?_cons_of_pos _ (by simpa using he'),
          List.find?_cons_of_pos _ (by simpa using he')]
      · unfold mapGet
        rw [List.find?_cons_of_neg _ (by simp [he']),
          List.find?_cons_of_neg _ (by simp [he'])]
        exact ih

theorem mapGet_append (m1 m2 : AttrMap) (k : List Char) :
    mapGet (m1 ++ m2) k = (mapGet m1 k).or (mapGet m2 k) := by
  induction m1 with
  | nil =>
    rw [List.nil_append]
    rfl
  | cons e t ih =>
    rw [List.cons_append]
    by_cases he : (e.1 == k) = true
    · unfold mapGet
      rw [List.find?_cons_of_pos _ (by simpa using he),
        List.find?_cons_of_pos _ (by simpa using he)]
      rfl
    · unfold mapGet
      rw [List.find?_cons_of_neg _ (by simp [he]),
        List.find?_cons_of_neg _ (by simp [he])]
      exact ih

/-- `Map.set` then `get`: the set key reads back the new value, all other
keys read the old table. -/
theorem mapGet_mapSet (m : AttrMap) (k k' : List Char) (v : ImgExtra) :
    mapGet (mapSet m k v) k' = if k' = k then some v else mapGet m k' := by
  unfold mapSet
  by_cases hany : m.any (fun e => e.1 == k) = true
  · rw [if_pos hany]
    by_cases hk : k' = k
    · subst hk
      rw [if_pos rfl]
      exact mapGet_map_set_eq m k' v hany
    · rw [if_neg hk]
      exact mapGet_map_set_ne m k k' v hk
  · rw [if_neg hany, mapGet_append]
    have hnone : mapGet m k = none := by
      unfold mapGet
      have hfind : m.find? (fun e => e.1 == k) = none := by
        apply List.find?_eq_none.mpr
        intro x hx
        have hfalse : m.any (fun e => e.1 == k) = false := by
          cases hb : m.any (fun e => e.1 == k)
          · rfl
          · exact absurd hb hany
        have := List.any_eq_false.mp hfalse x hx
        simpa using this
      rw [hfind]
      rfl
    by_cases hk : k' = k
    · subst hk
      rw [if_pos rfl, hnone]
      unfold mapGet
      rw [List.find?_cons_of_pos _ (by simp)]
      rfl
    · rw [if_neg hk]
      have hsingle : mapGet [(k, v)] k' = none := by
        unfold mapGet
        rw [List.find?_cons_of_neg _ (by
          simp only [beq_eq_false_iff_ne, ne_eq]
          simp only [beq_iff_eq]
          exact fun hc => hk hc.symm)]
        rfl
      rw [hsingle, Option.or_none]

theorem lastRecordedFor_cons (src full : List Char) (rest : List (List Char)) :
    lastRecordedFor src (full :: rest) =
      (lastRecordedFor src rest).or
        (match parseHtmlImgTag full with
         | some p =>
           if imgExtraNonDefault p && (p.src == src) then some ⟨p.align, p.width⟩
           else none
         | none => none) := by
  unfold lastRecordedFor
  rw [List.reverse_cons, List.findSome?_append]
  congr 1
  cases hp : parseHtmlImgTag full with
  | none => simp [List.findSome?, hp]
  | some p =>
    by_cases hc : (imgExtraNonDefault p && (p.src == src)) = true
    · simp [List.findSome?, hp, hc]
    · simp [List.findSome?, hp, hc]

theorem lastRecordedFor_cons_none (src full : List Char) (rest : List (List Char))
    (hp : parseHtmlImgTag full = none) :
    lastRecordedFor src (full :: rest) = lastRecordedFor src rest := by
  rw [lastRecordedFor_cons, hp]
  simp

theorem lastRecordedFor_cons_some (src full : List Char) (rest : List (List Char))
    (p : ImgTagAttrs) (hp : parseHtmlImgTag full = some p) :
    lastRecordedFor src (full :: rest) =
      (lastRecordedFor src rest).or
        (if imgExtraNonDefault p && (p.src == src) then some ⟨p.align, p.width⟩
         else none) := by
  rw [lastRecordedFor_cons, hp]

theorem preprocessGo_mapGet (fuel : Nat) (content : List Char) (m : AttrMap)
    (src : List Char) (hf : content.length < fuel) :
    mapGet ((preprocessHtmlImagesGo fuel content m).2) src =
      (lastRecordedFor src (imgTagMatchesGo fuel content)).or (mapGet m src) := by
  induction fuel generalizing content m with
  | zero => omega
  | succ fuel ih =>
    cases hm : findImgTagMatch content with
    | none =>
      simp only [preprocessHtmlImagesGo, imgTagMatchesGo, hm]
      simp [lastRecordedFor]
    | some r =>
      obtain ⟨b, full, attrs, after⟩ := r
      have hlt : after.length < content.length :=
        findImgTagMatch_after_lt content b full attrs after hm
      have hfuel2 : after.length < fuel := by omega
      cases hp : parseHtmlImgTag full with
      | none =>
        simp only [preprocessHtmlImagesGo, imgTagMatchesGo, hm, hp]
        rw [ih after m hfuel2, lastRecordedFor_cons_none src full _ hp]
      | some p =>
        simp only [preprocessHtmlImagesGo, imgTagMatchesGo, hm, hp]
        rw [ih after _ hfuel2, lastRecordedFor_cons_some src full _ p hp]
        by_cases hnd : imgExtraNonDefault p = true
        · rw [if_pos hnd]
          have hinner : mapGet (mapSet m p.src ⟨p.align, p.width⟩) src =
              ((if imgExtraNonDefault p && (p.src == src) then
                  some (⟨p.align, p.width⟩ : ImgExtra) else none)).or (mapGet m src) := by
            rw [mapGet_mapSet]
            by_cases hs : src = p.src
            · rw [if_pos hs, if_pos (by simp [hnd, hs.symm])]
              rfl
            · rw [if_neg hs, if_neg (by
                simp only [Bool.and_eq_true, beq_iff_eq]
                intro hc
                exact hs hc.2.symm)]
              rfl
          rw [hinner, Option.or_assoc]
        · rw [if_neg hnd]
          have hmatch : (if imgExtraNonDefault p && (p.src == src) then
              some (⟨p.align, p.width⟩ : ImgExtra) else none) = none := by
            rw [if_neg (by simp [hnd])]
          rw [hmatch, Option.or_none]

mutual

theorem imagesOf_applyNode (m : AttrMap) (n : PNode) :
    imagesOfNode (applyImageAttributesNode m n) =
      (imagesOfNode n).map (updateImage m) := by
  cases n with
  | text s marks => rfl
  | image a => rfl
  | hard_break => rfl
  | horizontal_rule => rfl
  | paragraph cs =>
    simp [applyImageAttributesNode, imagesOfNode, imagesOf_applyList m cs]
  | heading lv cs =>
    simp [applyImageAttributesNode, imagesOfNode, imagesOf_applyList m cs]
  | blockquote cs =>
    simp [applyImageAttributesNode, imagesOfNode, imagesOf_applyList m cs]
  | bullet_list cs =>
    simp [applyImageAttributesNode, imagesOfNode, imagesOf_applyList m cs]
  | ordered_list o cs =>
    simp [applyImageAttributesNode, imagesOfNode, imagesOf_applyList m cs]
  | list_item cs =>
    simp [applyImageAttributesNode, imagesOfNode, imagesOf_applyList m cs]
  | table cs =>
    simp [applyImageAttributesNode, imagesOfNode, imagesOf_applyList m cs]
  | table_row cs =>
    simp [applyImageAttributesNode, imagesOfNode, imagesOf_applyList m cs]
  | table_cell cs =>
    simp [applyImageAttributesNode, imagesOfNode, imagesOf_applyList m cs]
  | table_header cs =>
    simp [applyImageAttributesNode, imagesOfNode, imagesOf_applyList m cs]
  | doc cs =>
    simp [applyImageAttributesNode, imagesOfNode, imagesOf_applyList m cs]

theorem imagesOf_applyList (m : AttrMap) (cs : List PNode) :
    imagesOfList (applyImageAttributesList m cs) =
      (imagesOfList cs).map (updateImage m) := by
  cases cs with
  | nil => rfl
  | cons n rest =>
    simp [applyImageAttributesList, imagesOfList, imagesOf_applyNode m n,
      imagesOf_applyList m rest]

end

theorem imagesOf_applyImageAttributes (d : PNode) (m : AttrMap) :
    imagesOfNode (applyImageAttributes d m) =
      (imagesOfNode d).map (updateImage m) := by
  cases m with
  | nil =>
    have h0 : applyImageAttributes d [] = d := rfl
    rw [h0]
    have hid : ∀ a ∈ imagesOfNode d, updateImage [] a = a := by
      intro a _
      rfl
    rw [List.map_congr_left hid, List.map_id' (imagesOfNode d)]
  | cons e t =>
    have h1 : applyImageAttributes d (e :: t) = applyImageAttributesNode (e :: t) d := by
      unfold applyImageAttributes
      rw [if_neg (by simp)]
    rw [h1]
    exact imagesOf_applyNode _ d

/-- C10: image attribute reattachment is keyed solely by `src`.
(1) The side table built by `preprocessHtmlImages` answers, for any `src`,
exactly the attributes of the LAST img-tag match with that `src` and
non-default attributes (later tags overwrite earlier ones wholesale).
(2) `applyImageAttributes` rewrites EVERY image node of the tree by that
lookup on its own `src` — matching images are updated whether they came
from an HTML tag or from plain markdown syntax, non-matching images are
untouched.
(3) Concretely: with two tags of src "a.png" (first width 50, then align
"left"), only the last tag's attributes remain, and a plain markdown image
node with src "a.png" is rewritten to align "left". -/
theorem C10_image_attrs_keyed_by_src (content src : List Char) (d : PNode) :
    (mapGet ((preprocessHtmlImages content).2) src =
      lastRecordedFor src (imgTagMatches content))
    ∧ imagesOfNode (applyImageAttributes d (preprocessHtmlImages content).2) =
        (imagesOfNode d).map (updateImage (preprocessHtmlImages content).2)
    ∧ (preprocessHtmlImages (jsStr
          "<img src=\"a.png\" width=\"50\" /> ![z](a.png) <img src=\"a.png\" align=\"left\" />")).2
        = [(jsStr "a.png", ⟨some (jsStr "left"), none⟩)]
    ∧ applyImageAttributes
        (PNode.doc [PNode.paragraph [PNode.image
          ⟨jsStr "a.png", some (jsStr "z"), none, some (jsStr "inline"), some 100, none⟩]])
        [(jsStr "a.png", ⟨some (jsStr "left"), none⟩)]
      = PNode.doc [PNode.paragraph [PNode.image
          ⟨jsStr "a.png", some (jsStr "z"), none, some (jsStr "left"), some 100, none⟩]] := by
  refine ⟨?_, imagesOf_applyImageAttributes d _, by decide, rfl⟩
  unfold preprocessHtmlImages imgTagMatches
  rw [preprocessGo_mapGet _ _ _ _ (Nat.lt_succ_self _)]
  have : mapGet [] src = none := rfl
  rw [this, Option.or_none]

theorem isPrefixOf_append_self (l b : List Char) : l.isPrefixOf (l ++ b) = true := by
  induction l with
  | nil => simp [List.isPrefixOf]
  | cons c t ih => simp [List.isPrefixOf, ih]

theorem findLazyEnd_clean (endPat h b : List Char) (t0 : List Char)
    (hep : endPat = '\x01' :: t0) (hh : ∀ c ∈ h, c ≠ '\x01') :
    findLazyEnd endPat (h ++ (endPat ++ b)) = some (h, b) := by
  induction h with
  | nil =>
    rw [List.nil_append]
    have hcons : ∃ c rest, endPat ++ b = c :: rest := by
      rw [hep]
      exact ⟨'\x01', t0 ++ b, by simp⟩
    obtain ⟨c, rest, hcr⟩ := hcons
    rw [hcr]
    unfold findLazyEnd
    rw [← hcr, if_pos (isPrefixOf_append_self endPat b), List.drop_left]
  | cons c h' ih =>
    have hc : c ≠ '\x01' := hh c (by simp)
    have hpre : endPat.isPrefixOf (c :: (h' ++ (endPat ++ b))) = false := by
      rw [hep]
      simp only [List.isPrefixOf, Bool.and_eq_false_iff]
      left
      simp only [beq_eq_false_iff_ne]
      exact fun hcontra => hc hcontra.symm
    rw [List.cons_append]
    unfold findLazyEnd
    rw [if_neg (by simp [hpre]), ih (fun x hx => hh x (by simp [hx]))]

theorem takeWhile_digits_prepend (d : List Char) (Z : List Char)
    (hdd : ∀ c ∈ d, c.isDigit) :
    (d ++ (CMTS ++ Z)).takeWhile Char.isDigit = d := by
  induction d with
  | nil =>
    rw [List.nil_append]
    have h1 : Char.isDigit '\x01' = false := rfl
    show (('\x01' :: ('C' :: 'M' :: 'T' :: 'S' :: '\x01' :: [])) ++ Z).takeWhile
      Char.isDigit = []
    rw [List.cons_append, List.takeWhile_cons, h1]
    rfl
  | cons c d' ih =>
    rw [List.cons_append, List.takeWhile_cons, hdd c (by simp)]
    rw [ih (fun x hx => hdd x (by simp [hx]))]
    rw [if_pos rfl]

theorem matchMarkerAt_exact (d h b : List Char)
    (hd : d ≠ []) (hdd : ∀ c ∈ d, c.isDigit) (hh : ∀ c ∈ h, c ≠ '\x01') :
    matchMarkerAt (CMTS ++ (d ++ (CMTS ++ (h ++ (CMTE ++ (d ++ (CMTE ++ b))))))) =
      some (d, h, b) := by
  unfold matchMarkerAt
  rw [if_pos (isPrefixOf_append_self CMTS _), List.drop_left]
  rw [takeWhile_digits_prepend d _ hdd]
  rw [if_neg (by simp [hd]), List.drop_left, if_pos (isPrefixOf_append_self CMTS _),
    List.drop_left]
  have hassoc : h ++ (CMTE ++ (d ++ (CMTE ++ b))) =
      h ++ ((CMTE ++ d ++ CMTE) ++ b) := by
    simp [List.append_assoc]
  rw [hassoc, findLazyEnd_clean (CMTE ++ d ++ CMTE) h b
    ((('C' :: 'M' :: 'T' :: 'E' :: '\x01' :: []) ++ d) ++ CMTE) (by rfl) hh]

theorem matchMarkerAt_head_ne (c : Char) (t : List Char) (hc : c ≠ '\x01') :
    matchMarkerAt (c :: t) = none := by
  unfold matchMarkerAt
  rw [if_neg]
  simp only [CMTS, List.isPrefixOf, Bool.and_eq_true, beq_iff_eq]
  intro hcontra
  exact hc hcontra.1.symm

theorem findMarkerMatch_append_free (a l : List Char) (ha : ∀ c ∈ a, c ≠ '\x01') :
    findMarkerMatch (a ++ l) =
      match findMarkerMatch l with
      | some (b, ds, h, af) => some (a ++ b, ds, h, af)
      | none => none := by
  induction a with
  | nil =>
    rw [List.nil_append]
    cases hf : findMarkerMatch l with
    | none => rfl
    | some r =>
      obtain ⟨b, ds, h, af⟩ := r
      simp
  | cons c a' ih =>
    rw [List.cons_append]
    show (match matchMarkerAt (c :: (a' ++ l)) with
      | some (ds, h, after) => some (([] : List Char), ds, h, after)
      | none =>
        match findMarkerMatch (a' ++ l) with
        | some (b, ds, h, after) => some (c :: b, ds, h, after)
        | none => none) = _
    rw [matchMarkerAt_head_ne c _ (ha c (by simp))]
    rw [ih (fun x hx => ha x (by simp [hx]))]
    cases hf : findMarkerMatch l with
    | none => rfl
    | some r =>
      obtain ⟨b, ds, h, af⟩ := r
      simp

theorem findMarkerMatch_free (l : List Char) (hl : ∀ c ∈ l, c ≠ '\x01') :
    findMarkerMatch l = none := by
  have := findMarkerMatch_append_free l [] hl
  rw [List.append_nil] at this
  rw [this]
  rfl

theorem splitMarkersGo_free (ct : CommentTexts) (marks : List Mark) (fuel : Nat)
    (b : List Char) (hb : ∀ c ∈ b, c ≠ '\x01') :
    splitMarkersGo ct marks fuel b =
      if b.isEmpty then [] else [PNode.text b marks] := by
  cases fuel with
  | zero => rfl
  | succ n =>
    show (match findMarkerMatch b with
      | none => if b.isEmpty then [] else [PNode.text b marks]
      | some (before, ds, hl, after) =>
        (if before.isEmpty then [] else [PNode.text before marks]) ++
        (if hl.isEmpty then [] else
          [PNode.text hl (addCommentToSet ((ctGet ct (digitsToNat ds)).getD []) marks)]) ++
        splitMarkersGo ct marks n after) = _
    rw [findMarkerMatch_free b hb]

theorem containsSub_append_here (a X : List Char) :
    containsSub CMTS (a ++ (CMTS ++ X)) = true := by
  induction a with
  | nil =>
    rw [List.nil_append]
    show containsSub CMTS ('\x01' :: (('C' :: 'M' :: 'T' :: 'S' :: '\x01' :: []) ++ X)) = true
    unfold containsSub
    rw [show ('\x01' :: (('C' :: 'M' :: 'T' :: 'S' :: '\x01' :: []) ++ X)) = CMTS ++ X from rfl]
    rw [isPrefixOf_append_self CMTS X]
    rfl
  | cons c a' ih =>
    rw [List.cons_append]
    unfold containsSub
    rw [ih]
    simp

/-- C4 counterexample: the claim says a `START(id)`/`END(id)` pair is
resolved into a comment-marked run even when it spans multiple text
leaves.  In this document the pair with id 0 spans two text leaves (the
start sentinel sits in an em-marked leaf, the end sentinel in a plain
leaf): `applyCommentMarks` leaves the document unchanged and produces no
comment mark at all — the markers stay as literal text. -/
theorem C4_counterexample :
    applyCommentMarks
        (PNode.doc [PNode.paragraph
          [PNode.text (CMTS ++ jsStr "0" ++ CMTS ++ jsStr "hel") [Mark.em],
           PNode.text (jsStr "lo" ++ CMTE ++ jsStr "0" ++ CMTE) []]])
        [(0, jsStr "note")]
      = PNode.doc [PNode.paragraph
          [PNode.text (CMTS ++ jsStr "0" ++ CMTS ++ jsStr "hel") [Mark.em],
           PNode.text (jsStr "lo" ++ CMTE ++ jsStr "0" ++ CMTE) []]]
    ∧ hasCommentMarkNode (applyCommentMarks
        (PNode.doc [PNode.paragraph
          [PNode.text (CMTS ++ jsStr "0" ++ CMTS ++ jsStr "hel") [Mark.em],
           PNode.text (jsStr "lo" ++ CMTE ++ jsStr "0" ++ CMTE) []]])
        [(0, jsStr "note")]) = false :=
  ⟨rfl, rfl⟩

/-- C4 (amended): comment resolution matches `START(id)`/`END(id)` pairs
by numeric id only within a single text leaf.  When a whole pair lies in
one leaf — any marker-free text before and after it — the enclosed text
becomes a run carrying the comment mark added to the leaf's existing
marks (the comment text looked up by the numeric id, empty if absent),
with the surrounding text preserved.  A pair spanning multiple leaves, or
an unmatched/mismatched pair (second conjunct: ids 0 vs 1), is left as
literal text; no input raises an error. -/
theorem C4_comment_resolution (a h b d : List Char) (marks : List Mark)
    (ct : CommentTexts)
    (ha : ∀ c ∈ a, c ≠ '\x01') (hh : ∀ c ∈ h, c ≠ '\x01')
    (hb : ∀ c ∈ b, c ≠ '\x01')
    (hd : d ≠ []) (hdd : ∀ c ∈ d, c.isDigit) (hhne : h ≠ []) (hct : ct ≠ []) :
    applyCommentMarks
        (PNode.doc [PNode.paragraph
          [PNode.text (a ++ (CMTS ++ (d ++ (CMTS ++ (h ++ (CMTE ++ (d ++ (CMTE ++ b)))))))) marks]])
        ct
      = PNode.doc [PNode.paragraph
          ((if a.isEmpty then [] else [PNode.text a marks]) ++
           ([PNode.text h (addCommentToSet ((ctGet ct (digitsToNat d)).getD []) marks)] ++
            (if b.isEmpty then [] else [PNode.text b marks])))]
    ∧ applyCommentMarks
        (PNode.doc [PNode.paragraph
          [PNode.text (CMTS ++ jsStr "0" ++ CMTS ++ jsStr "xy" ++ CMTE ++ jsStr "1" ++ CMTE) []]])
        [(0, jsStr "n")]
      = PNode.doc [PNode.paragraph
          [PNode.text (CMTS ++ jsStr "0" ++ CMTS ++ jsStr "xy" ++ CMTE ++ jsStr "1" ++ CMTE) []]] := by
  constructor
  · have hmatchAt := matchMarkerAt_exact d h b hd hdd hh
    have hfind : findMarkerMatch
        (a ++ (CMTS ++ (d ++ (CMTS ++ (h ++ (CMTE ++ (d ++ (CMTE ++ b)))))))) =
        some (a, d, h, b) := by
      rw [findMarkerMatch_append_free a _ ha]
      have hcons : CMTS ++ (d ++ (CMTS ++ (h ++ (CMTE ++ (d ++ (CMTE ++ b)))))) =
          '\x01' :: (('C' :: 'M' :: 'T' :: 'S' :: '\x01' :: []) ++
            (d ++ (CMTS ++ (h ++ (CMTE ++ (d ++ (CMTE ++ b))))))) := rfl
      rw [show findMarkerMatch
          (CMTS ++ (d ++ (CMTS ++ (h ++ (CMTE ++ (d ++ (CMTE ++ b))))))) =
          match matchMarkerAt
            (CMTS ++ (d ++ (CMTS ++ (h ++ (CMTE ++ (d ++ (CMTE ++ b))))))) with
          | some (ds, hx, after) => some (([] : List Char), ds, hx, after)
          | none =>
            match findMarkerMatch (('C' :: 'M' :: 'T' :: 'S' :: '\x01' :: []) ++
              (d ++ (CMTS ++ (h ++ (CMTE ++ (d ++ (CMTE ++ b))))))) with
            | some (bx, ds, hx, after) => some ('\x01' :: bx, ds, hx, after)
            | none => none from rfl]
      rw [hmatchAt]
      simp
    -- the text split
    have hsplit : splitMarkersGo ct marks
        ((a ++ (CMTS ++ (d ++ (CMTS ++ (h ++ (CMTE ++ (d ++ (CMTE ++ b)))))))).length + 1)
        (a ++ (CMTS ++ (d ++ (CMTS ++ (h ++ (CMTE ++ (d ++ (CMTE ++ b)))))))) =
        (if a.isEmpty then [] else [PNode.text a marks]) ++
        ([PNode.text h (addCommentToSet ((ctGet ct (digitsToNat d)).getD []) marks)] ++
          (if b.isEmpty then [] else [PNode.text b marks])) := by
      simp only [splitMarkersGo, hfind]
      rw [splitMarkersGo_free ct marks _ b hb]
      have hhE : ¬ (h.isEmpty = true) := by simp [hhne]
      rw [if_neg hhE, List.append_assoc]
    -- transformTextNode
    have htext : transformTextNode ct
        (a ++ (CMTS ++ (d ++ (CMTS ++ (h ++ (CMTE ++ (d ++ (CMTE ++ b)))))))) marks =
        (if a.isEmpty then [] else [PNode.text a marks]) ++
        ([PNode.text h (addCommentToSet ((ctGet ct (digitsToNat d)).getD []) marks)] ++
          (if b.isEmpty then [] else [PNode.text b marks])) := by
      unfold transformTextNode
      rw [containsSub_append_here]
      rw [hsplit]
      rw [if_neg (by simp)]
      have hne : ((if a.isEmpty then [] else [PNode.text a marks]) ++
          ([PNode.text h (addCommentToSet ((ctGet ct (digitsToNat d)).getD []) marks)] ++
            (if b.isEmpty then [] else [PNode.text b marks]))).isEmpty = false := by
        cases ha2 : a.isEmpty <;> cases hb2 : b.isEmpty <;> simp [ha2, hb2]
      rw [if_neg (by simp [hne])]
    -- assemble the tree
    unfold applyCommentMarks
    rw [if_neg (by simp [hct])]
    show (match [PNode.doc (transformListC ct
        [PNode.paragraph [PNode.text (a ++ (CMTS ++ (d ++ (CMTS ++ (h ++ (CMTE ++ (d ++ (CMTE ++ b)))))))) marks]])] with
      | r :: _ => r
      | [] => PNode.doc [PNode.paragraph [PNode.text (a ++ (CMTS ++ (d ++ (CMTS ++ (h ++ (CMTE ++ (d ++ (CMTE ++ b)))))))) marks]]) = _
    show PNode.doc (transformListC ct
        [PNode.paragraph [PNode.text (a ++ (CMTS ++ (d ++ (CMTS ++ (h ++ (CMTE ++ (d ++ (CMTE ++ b)))))))) marks]]) = _
    show PNode.doc (transformNodeC ct
        (PNode.paragraph [PNode.text (a ++ (CMTS ++ (d ++ (CMTS ++ (h ++ (CMTE ++ (d ++ (CMTE ++ b)))))))) marks]) ++ transformListC ct []) = _
    show PNode.doc ([PNode.paragraph (transformListC ct
        [PNode.text (a ++ (CMTS ++ (d ++ (CMTS ++ (h ++ (CMTE ++ (d ++ (CMTE ++ b)))))))) marks])] ++ []) = _
    show PNode.doc ([PNode.paragraph (transformTextNode ct
        (a ++ (CMTS ++ (d ++ (CMTS ++ (h ++ (CMTE ++ (d ++ (CMTE ++ b)))))))) marks ++ transformListC ct [])] ++ []) = _
    rw [htext]
    show PNode.doc ([PNode.paragraph (((if a.isEmpty then [] else [PNode.text a marks]) ++
        ([PNode.text h (addCommentToSet ((ctGet ct (digitsToNat d)).getD []) marks)] ++
          (if b.isEmpty then [] else [PNode.text b marks]))) ++ [])] ++ []) = _
    rw [List.append_nil, List.append_nil]
  · rfl

/-- C4 witness: the amended theorem instantiated at the single-leaf text
`"A" ++ START(7) ++ "hi" ++ END(7) ++ "!"` with comment table
`{7 ↦ "note"}`: the leaf splits into "A", a comment-marked "hi" (comment
text "note"), and "!". -/
theorem C4_witness :
    ((∀ c ∈ jsStr "A", c ≠ '\x01') ∧ (∀ c ∈ jsStr "hi", c ≠ '\x01')
      ∧ (∀ c ∈ jsStr "!", c ≠ '\x01') ∧ jsStr "7" ≠ []
      ∧ (∀ c ∈ jsStr "7", c.isDigit) ∧ jsStr "hi" ≠ []
      ∧ ([(7, jsStr "note")] : CommentTexts) ≠ [])
    ∧ applyCommentMarks
        (PNode.doc [PNode.paragraph
          [PNode.text (jsStr "A" ++ (CMTS ++ (jsStr "7" ++ (CMTS ++ (jsStr "hi" ++
            (CMTE ++ (jsStr "7" ++ (CMTE ++ jsStr "!")))))))) []]])
        [(7, jsStr "note")]
      = PNode.doc [PNode.paragraph
          ((if (jsStr "A").isEmpty then [] else [PNode.text (jsStr "A") []]) ++
           ([PNode.text (jsStr "hi")
              (addCommentToSet ((ctGet [(7, jsStr "note")] (digitsToNat (jsStr "7"))).getD []) [])] ++
            (if (jsStr "!").isEmpty then [] else [PNode.text (jsStr "!") []]))) ] :=
  ⟨⟨by decide, by decide, by decide, by decide, by decide, by decide, by simp⟩,
   (C4_comment_resolution (jsStr "A") (jsStr "hi") (jsStr "!") (jsStr "7") []
      [(7, jsStr "note")] (by decide) (by decide) (by decide) (by decide)
      (by decide) (by decide) (by simp)).1⟩

/-- C9: for the empty input string — with the external tokenizer
producing no tokens on it and the external base parser producing the
one-empty-paragraph document, the behaviour the spec ascribes to those
dependencies — `parse` returns a document with exactly one empty
paragraph.  Moreover the table branch can never return a document with
zero children: whenever assembly yields no children it returns the
one-empty-paragraph document (src lines 446–448), and otherwise a
document wrapping the nonempty children; the table branch never returns
null, and the no-table branch returns null exactly when the base parser
does (the tokenizer produced nothing usable). -/
theorem C9_empty_input (ext : ExternalMD)
    (htok : ext.tokenize [] = [])
    (hbase : ext.baseParse [] = some (PNode.doc [PNode.paragraph []])) :
    markdownParse ext [] = some (PNode.doc [PNode.paragraph []])
    ∧ (∀ (ext2 : ExternalMD) (c2 : List Char) (ia : AttrMap) (ct : CommentTexts)
        (toks : List Tok) (ranges : List (Nat × Nat)),
        assembleGo ext2 c2 toks ranges 0 = [] →
        parseWithTables ext2 c2 ia ct toks ranges =
          some (PNode.doc [PNode.paragraph []]))
    ∧ (∀ (ext2 : ExternalMD) (c2 : List Char) (ia : AttrMap) (ct : CommentTexts)
        (toks : List Tok) (ranges : List (Nat × Nat)),
        parseWithTables ext2 c2 ia ct toks ranges ≠ none)
    ∧ (∀ (ext2 : ExternalMD) (c2 : List Char) (ia : AttrMap) (ct : CommentTexts),
        (parseNoTables ext2 c2 ia ct = none ↔ ext2.baseParse c2 = none)) := by
  refine ⟨?_, ?_, ?_, ?_⟩
  · have hpc : preprocessComments [] = ([], []) := rfl
    have hpi : preprocessHtmlImages [] = ([], []) := rfl
    unfold markdownParse
    rw [hpc]
    simp only []
    rw [hpi]
    simp only []
    rw [htok]
    simp only [findTableRangesGo, List.isEmpty_nil, if_pos rfl]
    unfold parseNoTables
    rw [hbase]
    rfl
  · intro ext2 c2 ia ct toks ranges hempty
    unfold parseWithTables
    rw [hempty]
    rfl
  · intro ext2 c2 ia ct toks ranges
    unfold parseWithTables
    by_cases hc : (assembleGo ext2 c2 toks ranges 0).isEmpty = true
    · rw [if_pos hc]
      simp
    · rw [if_neg hc]
      simp
  · intro ext2 c2 ia ct
    unfold parseNoTables
    cases hb : ext2.baseParse c2 with
    | none => simp
    | some d => simp

/-- C9 witness: a concrete external pair (tokenizer returning no tokens,
base parser returning the one-empty-paragraph document on every input)
satisfies the hypotheses, and parse of the empty string yields the
one-empty-paragraph document. -/
theorem C9_witness :
    (ExternalMD.mk (fun _ => []) (fun _ => some (PNode.doc [PNode.paragraph []]))).tokenize [] = []
    ∧ ((ExternalMD.mk (fun _ => []) (fun _ => some (PNode.doc [PNode.paragraph []]))).baseParse []
        = some (PNode.doc [PNode.paragraph []]))
    ∧ markdownParse
        (ExternalMD.mk (fun _ => []) (fun _ => some (PNode.doc [PNode.paragraph []]))) []
      = some (PNode.doc [PNode.paragraph []]) :=
  ⟨rfl, rfl,
   (C9_empty_input
     (ExternalMD.mk (fun _ => []) (fun _ => some (PNode.doc [PNode.paragraph []])))
     rfl rfl).1⟩

/-- C5 counterexample: the claim says every marker is right-padded to the
marker width (padding after the number); for an ordered list with start 9
and 2 children the width is 2 and the first marker produced by the code is
`" 9. "` (padding before the number), not the right-padded `"9 . "`. -/
theorem C5_counterexample :
    ¬ ∀ (order childCount i : Nat), i < childCount →
        orderedListDelim order childCount i =
          orderedListDelimRightPadded order childCount i := by
  intro hclaim
  have h := hclaim 9 2 0 (by norm_num)
  have h9 : orderedListDelim 9 2 0 = [' ', '9', '.', ' '] := by decide
  have h9' : orderedListDelimRightPadded 9 2 0 = ['9', ' ', '.', ' '] := by decide
  rw [h9, h9'] at h
  simp at h

/-- C5 (amended): for an ordered list with start attribute `s ≥ 1` and `n`
children, the serializer uses a marker width equal to the digit-width of
`s+n-1`; every marker is padded on the left (the number right-aligned) to
that width, so each marker has total length width+2, and continuation
lines are indented by width+2 spaces. -/
theorem C5_ordered_list_markers (order childCount i : Nat)
    (horder : 1 ≤ order) (hi : i < childCount) :
    (orderedListDelim order childCount i).length =
        orderedListMaxW order childCount + 2
    ∧ orderedListDelim order childCount i =
        List.replicate
            (orderedListMaxW order childCount - (natRepr (order + i)).length)
            ' '
          ++ natRepr (order + i) ++ ['.', ' ']
    ∧ orderedListMaxW order childCount =
        (natRepr (order + childCount - 1)).length
    ∧ orderedListIndent order childCount =
        List.replicate (orderedListMaxW order childCount + 2) ' ' := by
  have hstart : orderedListStart order = order := by
    unfold orderedListStart
    rw [if_neg (by omega)]
  have hlen : (natRepr (order + i)).length ≤ orderedListMaxW order childCount := by
    unfold orderedListMaxW
    rw [hstart]
    exact natRepr_length_mono (order + i) (order + childCount - 1)
      (by omega) (by omega)
  refine ⟨?_, ?_, ?_, ?_⟩
  · unfold orderedListDelim
    rw [hstart]
    simp only [List.length_append, List.length_replicate, List.length_cons,
      List.length_nil]
    omega
  · unfold orderedListDelim
    rw [hstart]
  · unfold orderedListMaxW
    rw [hstart]
  · rfl

/-- C5 witness: the amended theorem instantiated at start 9 with 2
children, first item: the marker is `" 9. "` of length 4 = width 2 + 2. -/
theorem C5_witness :
    1 ≤ 9 ∧ 0 < 2 ∧
      ((orderedListDelim 9 2 0).length = orderedListMaxW 9 2 + 2
       ∧ orderedListDelim 9 2 0 =
           List.replicate (orderedListMaxW 9 2 - (natRepr (9 + 0)).length) ' '
             ++ natRepr (9 + 0) ++ ['.', ' ']
       ∧ orderedListMaxW 9 2 = (natRepr (9 + 2 - 1)).length
       ∧ orderedListIndent 9 2 = List.replicate (orderedListMaxW 9 2 + 2) ' ') :=
  ⟨by norm_num, by norm_num, C5_ordered_list_markers 9 2 0 (by norm_num) (by norm_num)⟩

end Markus
